import Mathlib

/-! # Connected components by minimum-label propagation

A shallow embedding of the hybrid (MPI + Cilk) connected-components program
`Homework 2/src/cc_cilk_mpi.c`, and of the single-process `ColoringAlgorithm` of
`ccomponents.c` it is compared with, together with the entry tests of the reader
of `ccomponents.c`.

Modelling conventions.

* C `int` / `long long` values that are array indices, sizes or labels are natural
  numbers: every value the program computes from a well-formed graph is a
  copy of a vertex id or a sum bounded by the edge count, so no arithmetic wraps.
* An array is a `List Nat`; a read is `List.getD _ _ 0` and a write is `List.set`.
  The theorems carry the well-formedness hypotheses under which every access of
  the C program is in bounds.
* The processes of the MPI group are the entries of a `List Graph`, the entry at
  position `rank` being the private memory of that rank; `size` is the length.
* `cilk_for` is taken by its serial elision (the loop run in index order).
* A `while` loop whose termination is not syntactic takes a fuel argument and
  returns `none` when the fuel runs out.
-/

namespace CC

/-! ## Definitions -/

/-- The CSR graph record `struct Graph` of the program. -/
structure Graph where
  vertices : Nat
  num_edges : Nat
  edges : List Nat
  offsets : List Nat
  labels : List Nat
deriving DecidableEq

/-- The function `createGraph`: zeroed offsets (`calloc`), no edge array, and the
label array filled with `labels[i] = i` by the loop over `0 ≤ i < vertices`. -/
def createGraph (vertices : Nat) : Graph :=
  { vertices := vertices
    num_edges := 0
    edges := []
    offsets := List.replicate (vertices + 1) 0
    labels := List.range vertices }

/-- The local `start_v = rank * chunk` of `ColoringAlgorithmHybrid`, with
`chunk = n / size`. -/
def start_v (n size rank : Nat) : Nat :=
  let chunk := n / size
  rank * chunk

/-- The local `end_v = (rank == size - 1) ? n : (rank + 1) * chunk` of
`ColoringAlgorithmHybrid`. -/
def end_v (n size rank : Nat) : Nat :=
  let chunk := n / size
  if rank = size - 1 then n else (rank + 1) * chunk

/-- The table `recvcounts` filled by the set-up loop of `ColoringAlgorithmHybrid`:
entry `i` is `r_end - r_start` with `r_start = i * chunk` and
`r_end = (i == size - 1) ? n : (i + 1) * chunk`. -/
def recvcounts (n size : Nat) : List Nat :=
  let chunk := n / size
  (List.range size).map
    (fun i => (if i = size - 1 then n else (i + 1) * chunk) - i * chunk)

/-- The table `displs` filled by the same loop: entry `i` is `r_start = i * chunk`. -/
def displs (n size : Nat) : List Nat :=
  let chunk := n / size
  (List.range size).map (fun i => i * chunk)

/-- One iteration of the innermost loop, on edge slot `k` of vertex `v`: with
`u = edges[k]`, if `labels[v] > labels[u]` then `labels[v] = labels[u]` and the
change flag is set. The state is the label array and the flag. -/
def relaxSlot (edges : List Nat) (v : Nat) (st : List Nat × Nat) (k : Nat) : List Nat × Nat :=
  let u := edges.getD k 0
  if st.1.getD v 0 > st.1.getD u 0 then (st.1.set v (st.1.getD u 0), 1) else st

/-- The loop `for (k = offsets[v]; k < offsets[v+1]; k++)` over the slice of `v`. -/
def relaxVertex (g : Graph) (st : List Nat × Nat) (v : Nat) : List Nat × Nat :=
  (List.range' (g.offsets.getD v 0) (g.offsets.getD (v + 1) 0 - g.offsets.getD v 0)).foldl
    (relaxSlot g.edges v) st

/-- The loop over `start_v ≤ v < end_v` (serial elision of the `cilk_for`). -/
def relaxRange (g : Graph) (start_v end_v : Nat) (st : List Nat × Nat) : List Nat × Nat :=
  (List.range' start_v (end_v - start_v)).foldl (relaxVertex g) st

/-- The local relaxation of one round as executed by process `rank`: the new
private graph and the value of `local_changed`. -/
def localRelax (g : Graph) (rank size : Nat) : Graph × Nat :=
  let n := g.vertices
  let r := relaxRange g (start_v n size rank) (end_v n size rank) (g.labels, 0)
  ({ g with labels := r.1 }, r.2)

/-- Transfer of `cnt` array elements starting at element `off` from the buffer
`src` into the same positions of the buffer `dst`. -/
def copySeg (src dst : List Nat) (off cnt : Nat) : List Nat :=
  dst.take off ++ ((src.drop off).take cnt ++ dst.drop (off + cnt))

/-- The collective `MPI_Allgatherv` with `MPI_IN_PLACE`, seen from one process
whose receive buffer is `own`: block `i` (elements `displs[i]` up to
`displs[i] + recvcounts[i]`) is taken from the buffer of process `i`. -/
def allgatherv (bufs : List (List Nat)) (rc ds : List Nat) (own : List Nat) : List Nat :=
  (List.range bufs.length).foldl
    (fun buf i => copySeg (bufs.getD i []) buf (ds.getD i 0) (rc.getD i 0)) own

/-- The collective `MPI_Allreduce` with `MPI_MAX` over the flags of the processes. -/
def allreduceMax (flags : List Nat) : Nat :=
  flags.foldl max 0

/-- One pass through the body of the `while` loop by the whole group: every
process relaxes its own range on its private copy, the label arrays are
all-gathered, and the change flags are max-reduced. The result is the memory of
every process and the common value of `global_changed`. -/
def hybridRound (gs : List Graph) : List Graph × Nat :=
  let size := gs.length
  let res := (List.range size).map (fun rank => localRelax (gs.getD rank (createGraph 0)) rank size)
  let bufs := res.map (fun r => r.1.labels)
  let out := res.map (fun r =>
    { r.1 with labels :=
        allgatherv bufs (recvcounts r.1.vertices size) (displs r.1.vertices size) r.1.labels })
  (out, allreduceMax (res.map (fun r => r.2)))

/-- The function `ColoringAlgorithmHybrid` run by the whole group: the loop
`while (global_changed)` starting with `global_changed = 1`. The result is the
final memory of every process and the number of passes through the loop body;
`none` means the fuel was used up before the loop stopped. -/
def ColoringAlgorithmHybrid : Nat → List Graph → Option (List Graph × Nat)
  | 0, _ => none
  | fuel + 1, gs =>
    let r := hybridRound gs
    if r.2 = 0 then some (r.1, 1)
    else (ColoringAlgorithmHybrid fuel r.1).map (fun out => (out.1, out.2 + 1))

/-- The memory of the group after `k` passes through the loop body. -/
def rounds : Nat → List Graph → List Graph
  | 0, gs => gs
  | k + 1, gs => rounds k (hybridRound gs).1

/-- The counting loop of `main` on the coordinator:
`for (i = 0; i < vertices; i++) if (labels[i] == i) comps++`. -/
def countComponents (g : Graph) : Nat :=
  (List.range g.vertices).foldl (fun comps i => if g.labels.getD i 0 = i then comps + 1 else comps) 0

/-- The six-vertex scenario graph with edges (0,1), (1,2), (3,4) and vertex 5 isolated. -/
def sixGraph : Graph :=
  { vertices := 6
    num_edges := 6
    edges := [1, 0, 2, 1, 4, 3]
    offsets := [0, 1, 3, 4, 5, 6, 6]
    labels := List.range 6 }

/-- Vertex `u` is stored in the adjacency slice of vertex `v`. -/
def adj (g : Graph) (v u : Nat) : Prop :=
  v < g.vertices ∧ ∃ k, k < g.offsets.getD (v + 1) 0 ∧ g.offsets.getD v 0 ≤ k ∧ g.edges.getD k 0 = u

instance (g : Graph) (v u : Nat) : Decidable (adj g v u) := by
  unfold adj; infer_instance

/-- Well-formed CSR topology: `offsets` has `n + 1` entries, starts at 0, is
non-decreasing and ends at `num_edges`; `edges` has `num_edges` entries, each a
vertex id below `n`. -/
def Valid (g : Graph) : Prop :=
  g.offsets.length = g.vertices + 1 ∧
  g.offsets.getD 0 0 = 0 ∧
  (∀ i, i < g.vertices → g.offsets.getD i 0 ≤ g.offsets.getD (i + 1) 0) ∧
  g.offsets.getD g.vertices 0 = g.num_edges ∧
  g.edges.length = g.num_edges ∧
  (∀ k, k < g.num_edges → g.edges.getD k 0 < g.vertices)

instance (g : Graph) : Decidable (Valid g) := by
  unfold Valid; infer_instance

/-- Symmetric storage: whenever `u` is in the slice of `v`, `v` is in the slice of `u`. -/
def SymmetricStorage (g : Graph) : Prop :=
  ∀ v, v < g.vertices → ∀ k, k < g.offsets.getD (v + 1) 0 → g.offsets.getD v 0 ≤ k →
    adj g (g.edges.getD k 0) v

instance (g : Graph) : Decidable (SymmetricStorage g) := by
  unfold SymmetricStorage; infer_instance

/-- Vertices `i` and `j` lie in the same connected component of the undirected
graph whose edges are the stored adjacencies. -/
def Connected (g : Graph) : Nat → Nat → Prop :=
  Relation.ReflTransGen (fun a b => adj g a b ∨ adj g b a)

/-- The label array is a fixed point of relaxation: no stored adjacency `(v, u)`
has `labels[v] > labels[u]`. -/
def Converged (g : Graph) : Prop :=
  ∀ v, v < g.vertices → ∀ k, k < g.offsets.getD (v + 1) 0 → g.offsets.getD v 0 ≤ k →
    g.labels.getD v 0 ≤ g.labels.getD (g.edges.getD k 0) 0

instance (g : Graph) : Decidable (Converged g) := by
  unfold Converged; infer_instance

/-- What the relaxation of the range from `s` up to `e` maintains, relative to the
label array `L0` it started from with a cleared flag. -/
def RelaxInv (L0 : List Nat) (s e : Nat) (st : List Nat × Nat) : Prop :=
  st.1.length = L0.length ∧
  (∀ i, st.1.getD i 0 ≤ L0.getD i 0) ∧
  (∀ i, ¬ (s ≤ i ∧ i < e) → st.1.getD i 0 = L0.getD i 0) ∧
  (st.2 ≠ 0 → ∃ v, s ≤ v ∧ v < e ∧ st.1.getD v 0 < L0.getD v 0) ∧
  (st.2 = 0 → st.1 = L0) ∧
  st.2 ≤ 1

/-- Every label is at most its own index and names a vertex of the same component. -/
def Good (g : Graph) (L : List Nat) : Prop :=
  ∀ i, i < g.vertices → L.getD i 0 ≤ i ∧ Connected g i (L.getD i 0)

/-- The label array held by every process after one round that all processes
started with the graph `g`. -/
def gathered (g : Graph) (size : Nat) : List Nat :=
  allgatherv ((List.range size).map (fun r => (localRelax g r size).1.labels))
    (recvcounts g.vertices size) (displs g.vertices size) g.labels

/-- The graph held by every process after one round started from `g`. -/
def stepGraph (g : Graph) (size : Nat) : Graph :=
  { g with labels := gathered g size }

/-- The value of `global_changed` after one round started from `g`. -/
def stepFlag (g : Graph) (size : Nat) : Nat :=
  allreduceMax ((List.range size).map (fun r => (localRelax g r size).2))

/-- The common graph after `k` rounds, all processes having started from the same graph. -/
def iterStep (size : Nat) : Nat → Graph → Graph
  | 0, g => g
  | k + 1, g => iterStep size k (stepGraph g size)

/-- The state of a run on the topology of `g0`: only the labels differ from `g0`,
and they satisfy the invariant `Good`. -/
def RunInv (g0 g : Graph) : Prop :=
  ∃ L, g = { g0 with labels := L } ∧ L.length = g0.vertices ∧ Good g0 L

/-- Being in the same connected component, as an equivalence on the vertex ids
`0 .. vertices - 1`; its classes are the connected components. -/
def compSetoid (g : Graph) : Setoid (Fin g.vertices) where
  r a b := Connected g a b
  iseqv :=
    ⟨fun _ => Relation.ReflTransGen.refl,
     fun h => Relation.ReflTransGen.symmetric (fun _ _ hab => Or.symm hab) h,
     fun h1 h2 => Relation.ReflTransGen.trans h1 h2⟩

/-- The state of the relaxation of one process after it has finished the
vertices `s .. m - 1` and the first `j` edge slots of vertex `m`. -/
def relaxPartial (g : Graph) (s m j : Nat) (st : List Nat × Nat) : List Nat × Nat :=
  (List.range' (g.offsets.getD m 0) j).foldl (relaxSlot g.edges m) (relaxRange g s m st)

/-- The six-vertex scenario graph with its final labels `[0, 0, 0, 3, 3, 5]`. -/
def sixGraphDone : Graph :=
  { sixGraph with labels := [0, 0, 0, 3, 3, 5] }

/-- A five-vertex graph made of the two cliques on the vertex sets {0, 3, 4} and {1, 2}. -/
def cliqueGraph : Graph :=
  { vertices := 5
    num_edges := 8
    edges := [3, 4, 2, 1, 0, 4, 0, 3]
    offsets := [0, 2, 3, 4, 6, 8]
    labels := List.range 5 }

/-- The clique index of each vertex of `cliqueGraph`. -/
def cliqueOf (v : Nat) : Nat :=
  if v = 1 ∨ v = 2 then 1 else 0

/-- The local `chunk` of `BroadcastGraph`. -/
def chunk : Nat := 500000000

/-- The local `to_send = (num_edges - offset > chunk) ? chunk : num_edges - offset`
of the edge loop of `BroadcastGraph`. -/
def to_send (num_edges offset : Nat) : Nat :=
  if num_edges - offset > chunk then chunk else num_edges - offset

/-- The edge loop of `BroadcastGraph` on one process: while `offset < num_edges`,
`to_send` elements starting at `offset` are broadcast from the buffer `src` of
rank 0 into the buffer `dst` of this process, and `offset` advances by `to_send`. -/
def bcastEdges (num_edges : Nat) (src : List Nat) (offset : Nat) (dst : List Nat) : List Nat :=
  if offset < num_edges then
    bcastEdges num_edges src (offset + to_send num_edges offset)
      (copySeg src dst offset (to_send num_edges offset))
  else dst
termination_by num_edges - offset
decreasing_by
  simp only [to_send, chunk]
  split <;> omega

/-- The pairs `(offset, to_send)` of the successive passes of the edge loop of
`BroadcastGraph`, started at `offset`. -/
def chunkPlan (num_edges offset : Nat) : List (Nat × Nat) :=
  if offset < num_edges then
    (offset, to_send num_edges offset) ::
      chunkPlan num_edges (offset + to_send num_edges offset)
  else []
termination_by num_edges - offset
decreasing_by
  simp only [to_send, chunk]
  split <;> omega

/-- The function `BroadcastGraph` as run by process `rank`, where `g0` is the
graph pointer held by rank 0 (`none` for `NULL`) and `junk` gives the contents of
the freshly allocated edge buffer of a receiver. Every `MPI_Bcast` copies from the
buffer of rank 0. The result is `Except.error 1` for `exit(1)`. -/
def BroadcastGraph (g0 : Option Graph) (rank : Nat) (junk : Nat → Nat) : Except Nat Graph :=
  let n : Int := match g0 with
    | some g => (g.vertices : Int)
    | none => -1
  if n ≤ 0 then Except.error 1
  else
    match g0 with
    | none => Except.error 1
    | some g =>
      let mine : Graph :=
        if rank = 0 then g
        else
          { createGraph g.vertices with
            num_edges := g.num_edges
            edges := (List.range g.num_edges).map junk }
      Except.ok
        { mine with
          offsets := copySeg g.offsets mine.offsets 0 (g.vertices + 1)
          edges := bcastEdges g.num_edges g.edges 0 mine.edges }

/-- The function `BroadcastGraph` run by all `size` processes of the group. -/
def BroadcastGroup (g0 : Option Graph) (size : Nat) (junk : Nat → Nat → Nat) :
    List (Except Nat Graph) :=
  (List.range size).map (fun rank => BroadcastGraph g0 rank (junk rank))

/-- The private memory of process `p` in the group state `gs`. -/
def memOf (gs : List Graph) (p : Nat) : Graph :=
  gs.getD p (createGraph 0)

/-- Vertex `u` can be reached from vertex `v` along at most `d` stored adjacencies. -/
def withinDist (g : Graph) : Nat → Nat → Nat → Bool
  | 0, v, u => decide (v = u)
  | d + 1, v, u =>
    withinDist g d v u ||
      (List.range g.vertices).any (fun w => decide (adj g v w) && withinDist g d w u)

/-- The path graph 0 - 1 - 2 - ... - 9 in symmetric CSR form, with identity labels. -/
def pathGraph : Graph :=
  { vertices := 10
    num_edges := 18
    edges := [1, 0, 2, 1, 3, 2, 4, 3, 5, 4, 6, 5, 7, 6, 8, 7, 9, 8]
    offsets := [0, 1, 3, 5, 7, 9, 11, 13, 15, 17, 18]
    labels := List.range 10 }

/-- The component minimum of each vertex of `sixGraph`. -/
def sixMin (v : Nat) : Nat :=
  if v < 3 then 0 else if v < 5 then 3 else 5

/-- The loop `while (changed)` of `ColoringAlgorithm` in `ccomponents.c` on the
label array `L`: each pass clears `changed` and relaxes every vertex `0 ≤ v < n`
over its slice; the flag 1 stands for `changed = true`. The result is the final
label array and the number of passes; `none` means the fuel was used up. -/
def seqLoop (g : Graph) : Nat → List Nat → Option (List Nat × Nat)
  | 0, _ => none
  | fuel + 1, L =>
    let r := relaxRange g 0 g.vertices (L, 0)
    if r.2 = 0 then some (r.1, 1)
    else (seqLoop g fuel r.1).map (fun out => (out.1, out.2 + 1))

/-- The function `ColoringAlgorithm` of `ccomponents.c`: the labels are reset to
`labels[i] = i` and the loop `while (changed)` is run. -/
def ColoringAlgorithm (fuel : Nat) (g : Graph) : Option (Graph × Nat) :=
  (seqLoop g fuel (List.range g.vertices)).map (fun out => ({ g with labels := out.1 }, out.2))

/-- The value of `n` that rank 0 puts into the first `MPI_Bcast` of
`BroadcastGraph`, which is the value every rank holds after it: the vertex count
of the graph rank 0 holds, or `-1` when rank 0 holds `NULL`. -/
def sentVertexCount (g0 : Option Graph) : Int :=
  match g0 with
  | some g => (g.vertices : Int)
  | none => -1

/-- The collective calls, allocations and exits that one process performs in
`BroadcastGraph`, in program order. -/
inductive BcastEvent where
  | bcastVertices (n : Int)
  | exitWith (status : Nat)
  | bcastNumEdges (num_edges : Nat)
  | allocGraph (vertices : Nat)
  | allocEdges (num_edges : Nat)
  | bcastOffsets (count : Nat)
  | bcastEdgeChunk (offset count : Nat)
deriving DecidableEq

/-- The sequence of events of `BroadcastGraph` on process `rank`, where `g0` is
the graph pointer held by rank 0. -/
def BroadcastTrace (g0 : Option Graph) (rank : Nat) : List BcastEvent :=
  BcastEvent.bcastVertices (sentVertexCount g0) ::
    (if sentVertexCount g0 ≤ 0 then [BcastEvent.exitWith 1]
     else
      match g0 with
      | none => [BcastEvent.exitWith 1]
      | some g =>
        BcastEvent.bcastNumEdges g.num_edges ::
          ((if rank ≠ 0 then
              [BcastEvent.allocGraph g.vertices, BcastEvent.allocEdges g.num_edges]
            else []) ++
            BcastEvent.bcastOffsets (g.vertices + 1) ::
              (chunkPlan g.num_edges 0).map (fun c => BcastEvent.bcastEdgeChunk c.1 c.2)))

/-- The test of `readMTX` on a data entry after `u--; v--`:
`u >= 0 && v >= 0 && u < n && v < n && u != v`. -/
def acceptedEntry (n : Int) (e : Int × Int) : Bool :=
  decide (e.1 - 1 ≥ 0 ∧ e.2 - 1 ≥ 0 ∧ e.1 - 1 < n ∧ e.2 - 1 < n ∧ e.1 - 1 ≠ e.2 - 1)

/-- One pass through the body of the first loop of `readMTX` (degree count) on
the data entry `e`: `temp_count[u]++; temp_count[v]++` if the entry is accepted. -/
def countStep (n : Int) (temp_count : List Nat) (e : Int × Int) : List Nat :=
  if acceptedEntry n e then
    let u := (e.1 - 1).toNat
    let v := (e.2 - 1).toNat
    let t := temp_count.set u (temp_count.getD u 0 + 1)
    t.set v (t.getD v 0 + 1)
  else temp_count

/-- The loop `for (i = 0; i < n; i++) offsets[i+1] = offsets[i] + temp_count[i]`
of `readMTX`, on the zeroed array of `n + 1` offsets. -/
def fillOffsets (n : Nat) (temp_count : List Nat) : List Nat :=
  (List.range n).foldl
    (fun offsets i => offsets.set (i + 1) (offsets.getD i 0 + temp_count.getD i 0))
    (List.replicate (n + 1) 0)

/-- One pass through the body of the second loop of `readMTX` (edge fill) on the
data entry `e`; the state is the edge array and `temp_count`. -/
def fillStep (n : Int) (offsets : List Nat) (st : List Nat × List Nat) (e : Int × Int) :
    List Nat × List Nat :=
  if acceptedEntry n e then
    let u := (e.1 - 1).toNat
    let v := (e.2 - 1).toNat
    let edges1 := st.1.set (offsets.getD u 0 + st.2.getD u 0) v
    let temp1 := st.2.set u (st.2.getD u 0 + 1)
    let edges2 := edges1.set (offsets.getD v 0 + temp1.getD v 0) u
    let temp2 := temp1.set v (temp1.getD v 0 + 1)
    (edges2, temp2)
  else st

/-- The function `readMTX` of `cc_cilk_mpi.c` on a file whose size line is
`rows cols nnz` and whose data lines are `entries`, one pair per line; `junk`
gives the contents of the freshly allocated edge array. Each loop runs `nnz`
times and an iteration whose `fscanf` finds no further entry does nothing. The
first loop starts at the first data line. The second loop starts after the
`rewind`, the comment-skipping `while` (whose last `fgets` takes the size line)
and one more `fgets`, that is at the second data line. The result is `none` when
`n` is negative, where the allocation of `n` labels cannot succeed. -/
def readMTX (rows cols nnz : Int) (entries : List (Int × Int)) (junk : Nat → Nat) :
    Option Graph :=
  let n : Int := if rows > cols then rows else cols
  if n < 0 then none
  else
    let temp_count := (entries.take nnz.toNat).foldl (countStep n) (List.replicate n.toNat 0)
    let offsets := fillOffsets n.toNat temp_count
    let num_edges := offsets.getD n.toNat 0
    let filled := ((entries.drop 1).take nnz.toNat).foldl (fillStep n offsets)
      ((List.range num_edges).map junk, List.replicate n.toNat 0)
    some
      { vertices := n.toNat
        num_edges := num_edges
        edges := filled.1
        offsets := offsets
        labels := List.range n.toNat }

/-- The number of accepted entries among `es` that have the vertex `i` (0-based)
as an endpoint. -/
def degreeIn (n : Int) (es : List (Int × Int)) (i : Nat) : Nat :=
  (es.filter (acceptedEntry n)).countP (fun e => decide (e.1 - 1 = (i : Int) ∨ e.2 - 1 = (i : Int)))

/-- The two tests of `readMTX` in `ccomponents.c` on a data entry after
`u--; v--`: the entry is skipped when `u >= n || v >= n` and when `u == v`;
otherwise the loop body goes on to its array accesses. -/
def Seq.keepsEntry (n : Int) (e : Int × Int) : Bool :=
  !(decide (e.1 - 1 ≥ n ∨ e.2 - 1 ≥ n)) && !(decide (e.1 - 1 = e.2 - 1))

/-- The scanning loop `while (count < nnz && fgets(...))` of `readMTX` in
`ccomponents.c` over the data lines, started with the given `count`. The result
lists, in order, the pairs `(u, v)` after `u--; v--` for which the body reaches
its array accesses: `temp[u]++; temp[v]++` in the first pass, and
`offsets[u] + temp[u]++`, `edges[..] = v`, `offsets[v] + temp[v]++`, `edges[..] = u`
in the second pass, which scans the same lines from `data_start`. -/
def Seq.scanEntries (n nnz : Int) : List (Int × Int) → Int → List (Int × Int)
  | [], _ => []
  | e :: rest, count =>
    if count < nnz then
      if Seq.keepsEntry n e then (e.1 - 1, e.2 - 1) :: Seq.scanEntries n nnz rest (count + 1)
      else Seq.scanEntries n nnz rest count
    else []

/-! ## Generic facts about loops and arrays -/

theorem foldl_inv {α β : Type} (P : β → Prop) (f : β → α → β) (xs : List α) (b : β)
    (hb : P b) (hstep : ∀ c x, x ∈ xs → P c → P (f c x)) : P (xs.foldl f b) := by
  induction xs generalizing b with
  | nil => simpa using hb
  | cons x t ih =>
    simp only [List.foldl_cons]
    apply ih
    · exact hstep b x (by simp) hb
    · intro c y hy hc
      exact hstep c y (by simp [hy]) hc

theorem foldl_fixed {α β : Type} (f : β → α → β) (xs : List α) (b : β)
    (h : ∀ x, x ∈ xs → f b x = b) : xs.foldl f b = b := by
  induction xs with
  | nil => rfl
  | cons x t ih =>
    simp only [List.foldl_cons]
    rw [h x (by simp)]
    exact ih (fun y hy => h y (by simp [hy]))

theorem foldl_noop {α β : Type} (f : β → α → β) (flag : β → Nat)
    (hmono : ∀ c x, flag (f c x) = 0 → f c x = c) (xs : List α) (b : β)
    (h : flag (xs.foldl f b) = 0) : xs.foldl f b = b ∧ ∀ x, x ∈ xs → f b x = b := by
  induction xs generalizing b with
  | nil => simp
  | cons x t ih =>
    simp only [List.foldl_cons] at h ⊢
    obtain ⟨h1, h2⟩ := ih (f b x) h
    have h3 : f b x = b := hmono b x (by rw [← h1]; exact h)
    refine ⟨by rw [h1, h3], ?_⟩
    intro y hy
    rcases List.mem_cons.1 hy with rfl | hy
    · exact h3
    · have := h2 y hy
      rwa [h3] at this

theorem getD_set (l : List Nat) (i j x : Nat) :
    (l.set i x).getD j 0 = if i = j ∧ i < l.length then x else l.getD j 0 := by
  simp only [List.getD_eq_getElem?_getD, List.getElem?_set]
  by_cases h : i = j
  · subst h
    by_cases h2 : i < l.length
    · simp [h2]
    · have h3 : l.length ≤ i := by omega
      simp [h2, List.getElem?_eq_none h3]
  · simp [h]

theorem getD_of_le (l : List Nat) (i : Nat) (h : l.length ≤ i) : l.getD i 0 = 0 := by
  simp [List.getD_eq_getElem?_getD, List.getElem?_eq_none h]

theorem ext_getD (l m : List Nat) (hl : l.length = m.length)
    (h : ∀ i, i < l.length → l.getD i 0 = m.getD i 0) : l = m := by
  apply List.ext_getElem hl
  intro i h1 h2
  have := h i h1
  simpa [List.getD_eq_getElem?_getD, List.getElem?_eq_getElem h1, List.getElem?_eq_getElem h2]
    using this

theorem copySeg_length (src dst : List Nat) (off cnt : Nat)
    (hs : src.length = dst.length) (h : off + cnt ≤ dst.length) :
    (copySeg src dst off cnt).length = dst.length := by
  simp only [copySeg, List.length_append, List.length_take, List.length_drop]
  omega

theorem copySeg_getD (src dst : List Nat) (off cnt j : Nat)
    (hs : src.length = dst.length) (h : off + cnt ≤ dst.length) :
    (copySeg src dst off cnt).getD j 0 =
      if off ≤ j ∧ j < off + cnt then src.getD j 0 else dst.getD j 0 := by
  simp only [copySeg, List.getD_eq_getElem?_getD, List.getElem?_append, List.length_take,
    List.length_drop, List.getElem?_take, List.getElem?_drop]
  have e1 : min off dst.length = off := by omega
  have e2 : min cnt (src.length - off) = cnt := by omega
  rw [e1, e2]
  by_cases h1 : j < off
  · have h3 : ¬ (off ≤ j ∧ j < off + cnt) := by omega
    simp [h1, h3]
  · by_cases h2 : j - off < cnt
    · have h3 : off ≤ j ∧ j < off + cnt := by omega
      have h4 : off + (j - off) = j := by omega
      simp [h1, h2, h3, h4]
    · have h3 : ¬ (off ≤ j ∧ j < off + cnt) := by omega
      have h4 : off + cnt + (j - off - cnt) = j := by omega
      simp [h1, h2, h3, h4]

/-! ## The static partition of the vertex range -/

theorem chunk_mul_le (n size i : Nat) (hi : i < size) : (i + 1) * (n / size) ≤ n := by
  calc (i + 1) * (n / size) ≤ size * (n / size) := Nat.mul_le_mul_right _ (by omega)
    _ ≤ n := Nat.mul_div_le n size

theorem start_v_le_end_v (n size i : Nat) (hi : i < size) :
    start_v n size i ≤ end_v n size i := by
  simp only [start_v, end_v]
  split
  · have h1 := chunk_mul_le n size i hi
    have h2 : i * (n / size) ≤ (i + 1) * (n / size) := Nat.mul_le_mul_right _ (by omega)
    omega
  · exact Nat.mul_le_mul_right _ (by omega)

theorem end_v_le (n size i : Nat) (hi : i < size) : end_v n size i ≤ n := by
  simp only [end_v]
  split
  · exact Nat.le_refl n
  · exact chunk_mul_le n size i hi

theorem end_v_eq_start_v_succ (n size i : Nat) (hi : i + 1 < size) :
    end_v n size i = start_v n size (i + 1) := by
  simp only [start_v, end_v]
  have h : i ≠ size - 1 := by omega
  simp [h]

theorem start_v_zero (n size : Nat) : start_v n size 0 = 0 := by
  simp [start_v]

theorem end_v_last (n size : Nat) : end_v n size (size - 1) = n := by
  simp [end_v]

theorem start_v_mono (n size i j : Nat) (h : i ≤ j) :
    start_v n size i ≤ start_v n size j :=
  Nat.mul_le_mul_right _ h

theorem end_v_le_start_v (n size i j : Nat) (hj : j < size) (h : i < j) :
    end_v n size i ≤ start_v n size j := by
  rw [end_v_eq_start_v_succ n size i (by omega)]
  exact start_v_mono n size (i + 1) j h

theorem owner_exists (n size j : Nat) (hs : 1 ≤ size) (hj : j < n) :
    ∃ i, i < size ∧ start_v n size i ≤ j ∧ j < end_v n size i := by
  by_cases hc : j / (n / size) < size - 1 ∧ 0 < n / size
  · obtain ⟨h1, h2⟩ := hc
    refine ⟨j / (n / size), by omega, ?_, ?_⟩
    · simp only [start_v]
      exact Nat.div_mul_le_self j (n / size)
    · simp only [end_v]
      have h3 : j / (n / size) ≠ size - 1 := by omega
      simp only [h3, if_false]
      rw [Nat.mul_comm]
      exact Nat.lt_mul_div_succ j h2
  · refine ⟨size - 1, by omega, ?_, ?_⟩
    · simp only [start_v]
      by_cases h2 : 0 < n / size
      · have h1 : size - 1 ≤ j / (n / size) := by
          by_contra hlt
          exact hc ⟨Nat.lt_of_not_le hlt, h2⟩
        calc (size - 1) * (n / size) ≤ j / (n / size) * (n / size) := Nat.mul_le_mul_right _ h1
          _ ≤ j := Nat.div_mul_le_self j (n / size)
      · have h3 : n / size = 0 := Nat.eq_zero_of_not_pos h2
        simp [h3]
    · rw [end_v_last]
      exact hj

theorem owner_unique (n size j a b : Nat) (ha : a < size) (hb : b < size)
    (ha1 : start_v n size a ≤ j) (ha2 : j < end_v n size a)
    (hb1 : start_v n size b ≤ j) (hb2 : j < end_v n size b) : a = b := by
  rcases Nat.lt_trichotomy a b with h | h | h
  · have := end_v_le_start_v n size a b hb h
    omega
  · exact h
  · have := end_v_le_start_v n size b a ha h
    omega

/-! ## Local relaxation -/

theorem relaxVertex_inv (g : Graph) (v : Nat) (P : List Nat × Nat → Prop) (st : List Nat × Nat)
    (h0 : P st)
    (hstep : ∀ c k, k < g.offsets.getD (v + 1) 0 → g.offsets.getD v 0 ≤ k → P c →
      P (relaxSlot g.edges v c k)) : P (relaxVertex g st v) := by
  unfold relaxVertex
  apply foldl_inv P _ _ _ h0
  intro c k hk hc
  rw [List.mem_range'_1] at hk
  exact hstep c k (by omega) hk.1 hc

theorem relaxRange_inv (g : Graph) (s e : Nat) (P : List Nat × Nat → Prop) (st : List Nat × Nat)
    (h0 : P st)
    (hstep : ∀ c v k, s ≤ v → v < e → k < g.offsets.getD (v + 1) 0 → g.offsets.getD v 0 ≤ k →
      P c → P (relaxSlot g.edges v c k)) : P (relaxRange g s e st) := by
  unfold relaxRange
  apply foldl_inv P _ _ _ h0
  intro c v hv hc
  rw [List.mem_range'_1] at hv
  exact relaxVertex_inv g v P c hc (fun d k h1 h2 hd => hstep d v k hv.1 (by omega) h1 h2 hd)

theorem relaxSlot_pos (edges : List Nat) (v k : Nat) (c : List Nat × Nat)
    (h : c.1.getD v 0 > c.1.getD (edges.getD k 0) 0) :
    relaxSlot edges v c k = (c.1.set v (c.1.getD (edges.getD k 0) 0), 1) := by
  unfold relaxSlot
  exact if_pos h

theorem relaxSlot_neg (edges : List Nat) (v k : Nat) (c : List Nat × Nat)
    (h : ¬ c.1.getD v 0 > c.1.getD (edges.getD k 0) 0) :
    relaxSlot edges v c k = c := by
  unfold relaxSlot
  exact if_neg h

theorem relaxSlot_RelaxInv (edges L0 : List Nat) (s e v k : Nat) (c : List Nat × Nat)
    (hs : s ≤ v) (he : v < e) (hc : RelaxInv L0 s e c) :
    RelaxInv L0 s e (relaxSlot edges v c k) := by
  obtain ⟨h1, h2, h3, h4, h5, h6⟩ := hc
  by_cases hcond : c.1.getD v 0 > c.1.getD (edges.getD k 0) 0
  · rw [relaxSlot_pos edges v k c hcond]
    have hv : v < c.1.length := by
      by_contra hlt
      have := getD_of_le c.1 v (by omega)
      omega
    refine ⟨by simp [h1], ?_, ?_, ?_, ?_, ?_⟩
    · intro i
      show (c.1.set v _).getD i 0 ≤ _
      rw [getD_set]
      split
      · rename_i hh
        obtain ⟨rfl, _⟩ := hh
        have := h2 v
        omega
      · exact h2 i
    · intro i hi
      show (c.1.set v _).getD i 0 = _
      rw [getD_set]
      have hne : ¬ (v = i ∧ v < c.1.length) := by
        rintro ⟨rfl, _⟩
        exact hi ⟨hs, he⟩
      rw [if_neg hne]
      exact h3 i hi
    · intro _
      refine ⟨v, hs, he, ?_⟩
      show (c.1.set v _).getD v 0 < _
      rw [getD_set, if_pos ⟨rfl, hv⟩]
      have := h2 v
      omega
    · intro h
      exact absurd h Nat.one_ne_zero
    · exact Nat.le_refl 1
  · rw [relaxSlot_neg edges v k c hcond]
    exact ⟨h1, h2, h3, h4, h5, h6⟩

theorem relaxRange_RelaxInv (g : Graph) (s e : Nat) (L0 : List Nat) :
    RelaxInv L0 s e (relaxRange g s e (L0, 0)) := by
  apply relaxRange_inv g s e (RelaxInv L0 s e)
  · exact ⟨rfl, fun _ => Nat.le_refl _, fun _ _ => rfl, fun h => absurd rfl h, fun _ => rfl,
      Nat.zero_le _⟩
  · intro c v k hs he _ _ hc
    exact relaxSlot_RelaxInv g.edges L0 s e v k c hs he hc

theorem relaxSlot_noop (edges : List Nat) (v k : Nat) (c : List Nat × Nat)
    (h : (relaxSlot edges v c k).2 = 0) : relaxSlot edges v c k = c := by
  by_cases hcond : c.1.getD v 0 > c.1.getD (edges.getD k 0) 0
  · rw [relaxSlot_pos edges v k c hcond] at h
    exact absurd h Nat.one_ne_zero
  · exact relaxSlot_neg edges v k c hcond

theorem relaxSlot_fixed_iff (edges : List Nat) (v k : Nat) (L : List Nat) :
    relaxSlot edges v (L, 0) k = (L, 0) ↔ L.getD v 0 ≤ L.getD (edges.getD k 0) 0 := by
  by_cases hcond : L.getD v 0 > L.getD (edges.getD k 0) 0
  · rw [relaxSlot_pos edges v k (L, 0) hcond]
    constructor
    · intro h
      have h2 : (1 : Nat) = 0 := congrArg Prod.snd h
      exact absurd h2 Nat.one_ne_zero
    · intro h
      omega
  · rw [relaxSlot_neg edges v k (L, 0) hcond]
    constructor
    · intro _
      omega
    · intro _
      rfl

theorem relaxVertex_noop (g : Graph) (v : Nat) (c : List Nat × Nat)
    (h : (relaxVertex g c v).2 = 0) :
    relaxVertex g c v = c ∧
      ∀ k, k < g.offsets.getD (v + 1) 0 → g.offsets.getD v 0 ≤ k →
        relaxSlot g.edges v c k = c := by
  unfold relaxVertex at h ⊢
  obtain ⟨h1, h2⟩ := foldl_noop (relaxSlot g.edges v) Prod.snd
    (fun c k hk => relaxSlot_noop g.edges v k c hk) _ c h
  refine ⟨h1, ?_⟩
  intro k hk1 hk2
  apply h2
  rw [List.mem_range'_1]
  omega

theorem relaxRange_noop (g : Graph) (s e : Nat) (c : List Nat × Nat)
    (h : (relaxRange g s e c).2 = 0) :
    relaxRange g s e c = c ∧
      ∀ v, s ≤ v → v < e → ∀ k, k < g.offsets.getD (v + 1) 0 → g.offsets.getD v 0 ≤ k →
        relaxSlot g.edges v c k = c := by
  unfold relaxRange at h ⊢
  obtain ⟨h1, h2⟩ := foldl_noop (relaxVertex g) Prod.snd
    (fun c v hv => (relaxVertex_noop g v c hv).1) _ c h
  refine ⟨h1, ?_⟩
  intro v hv1 hv2 k hk1 hk2
  have h3 : relaxVertex g c v = c := by
    apply h2
    rw [List.mem_range'_1]
    omega
  have h4 : (relaxVertex g c v).2 = 0 := by
    rw [h3, ← h1]
    exact h
  exact (relaxVertex_noop g v c h4).2 k hk1 hk2

theorem relaxRange_fixed (g : Graph) (s e : Nat) (L : List Nat)
    (h : ∀ v, s ≤ v → v < e → ∀ k, k < g.offsets.getD (v + 1) 0 → g.offsets.getD v 0 ≤ k →
      L.getD v 0 ≤ L.getD (g.edges.getD k 0) 0) :
    relaxRange g s e (L, 0) = (L, 0) := by
  unfold relaxRange
  apply foldl_fixed
  intro v hv
  rw [List.mem_range'_1] at hv
  unfold relaxVertex
  apply foldl_fixed
  intro k hk
  rw [List.mem_range'_1] at hk
  rw [relaxSlot_fixed_iff]
  exact h v hv.1 (by omega) k (by omega) hk.1

/-! ## Well-formed topology -/

theorem offsets_mono_le (g : Graph) (hv : Valid g) (i j : Nat) (hij : i ≤ j)
    (hj : j ≤ g.vertices) : g.offsets.getD i 0 ≤ g.offsets.getD j 0 := by
  induction j with
  | zero =>
    have : i = 0 := by omega
    subst this
    exact Nat.le_refl _
  | succ m ih =>
    rcases Nat.eq_or_lt_of_le hij with h | h
    · subst h
      exact Nat.le_refl _
    · have h1 := ih (by omega) (by omega)
      have h2 := hv.2.2.1 m (by omega)
      omega

theorem slot_edge_lt (g : Graph) (hv : Valid g) (v k : Nat) (hvn : v < g.vertices)
    (hk : k < g.offsets.getD (v + 1) 0) : g.edges.getD k 0 < g.vertices := by
  have h1 := offsets_mono_le g hv (v + 1) g.vertices (by omega) (Nat.le_refl _)
  have h2 := hv.2.2.2.1
  exact hv.2.2.2.2.2 k (by omega)

theorem relaxSlot_Good (g : Graph) (hv : Valid g) (v k : Nat) (c : List Nat × Nat)
    (hvn : v < g.vertices) (hk1 : k < g.offsets.getD (v + 1) 0) (hk2 : g.offsets.getD v 0 ≤ k)
    (hc : Good g c.1) : Good g (relaxSlot g.edges v c k).1 := by
  by_cases hcond : c.1.getD v 0 > c.1.getD (g.edges.getD k 0) 0
  · rw [relaxSlot_pos g.edges v k c hcond]
    intro i hi
    show (c.1.set v _).getD i 0 ≤ i ∧ Connected g i ((c.1.set v _).getD i 0)
    rw [getD_set]
    split
    · rename_i hh
      obtain ⟨rfl, _⟩ := hh
      have hu := slot_edge_lt g hv v k hvn hk1
      have h1 := hc v hvn
      have h2 := hc (g.edges.getD k 0) hu
      refine ⟨by omega, ?_⟩
      have hadj : adj g v (g.edges.getD k 0) := ⟨hvn, k, hk1, hk2, rfl⟩
      exact Relation.ReflTransGen.head (Or.inl hadj) h2.2
    · exact hc i hi
  · rw [relaxSlot_neg g.edges v k c hcond]
    exact hc

theorem relaxRange_Good (g : Graph) (hv : Valid g) (s e : Nat) (he : e ≤ g.vertices)
    (c : List Nat × Nat) (hc : Good g c.1) : Good g (relaxRange g s e c).1 := by
  apply relaxRange_inv g s e (fun st => Good g st.1) c hc
  intro d v k _ h2 h3 h4 hd
  exact relaxSlot_Good g hv v k d (by omega) h3 h4 hd

/-! ## The collectives -/

theorem displs_getD (n size i : Nat) (hi : i < size) :
    (displs n size).getD i 0 = start_v n size i := by
  simp [displs, start_v, List.getD_eq_getElem?_getD, List.getElem?_map, List.getElem?_range hi]

theorem recvcounts_getD (n size i : Nat) (hi : i < size) :
    (recvcounts n size).getD i 0 = end_v n size i - start_v n size i := by
  simp [recvcounts, start_v, end_v, List.getD_eq_getElem?_getD, List.getElem?_map,
    List.getElem?_range hi]

theorem allreduceMax_ge (flags : List Nat) (a : Nat) : a ≤ flags.foldl max a := by
  induction flags generalizing a with
  | nil => simp
  | cons x t ih =>
    simp only [List.foldl_cons]
    exact Nat.le_trans (Nat.le_max_left a x) (ih (max a x))

theorem allreduceMax_eq_zero (flags : List Nat) :
    allreduceMax flags = 0 ↔ ∀ f, f ∈ flags → f = 0 := by
  unfold allreduceMax
  induction flags with
  | nil => simp
  | cons x t ih =>
    simp only [List.foldl_cons, List.mem_cons]
    constructor
    · intro h
      have hx : x = 0 := by
        have := allreduceMax_ge t (max 0 x)
        have h2 : max 0 x ≤ 0 := by omega
        simpa using h2
      subst hx
      intro f hf
      rcases hf with rfl | hf
      · rfl
      · exact ih.1 (by simpa using h) f hf
    · intro h
      have hx : x = 0 := h x (Or.inl rfl)
      subst hx
      simpa using ih.2 (fun f hf => h f (Or.inr hf))

theorem allgatherv_upto (bufs : List (List Nat)) (n size : Nat) (own : List Nat)
    (hbufs : ∀ i, i < size → (bufs.getD i []).length = n)
    (hown : own.length = n) (m : Nat) (hm : m ≤ size) :
    ((List.range m).foldl
        (fun buf i => copySeg (bufs.getD i []) buf ((displs n size).getD i 0)
          ((recvcounts n size).getD i 0)) own).length = n ∧
    ∀ i, i < m → ∀ j, start_v n size i ≤ j → j < end_v n size i →
      ((List.range m).foldl
        (fun buf i => copySeg (bufs.getD i []) buf ((displs n size).getD i 0)
          ((recvcounts n size).getD i 0)) own).getD j 0 = (bufs.getD i []).getD j 0 := by
  induction m with
  | zero =>
    refine ⟨by simpa using hown, ?_⟩
    intro i hi
    omega
  | succ m ih =>
    obtain ⟨ih1, ih2⟩ := ih (by omega)
    rw [List.range_succ, List.foldl_append]
    simp only [List.foldl_cons, List.foldl_nil]
    rw [displs_getD n size m (by omega), recvcounts_getD n size m (by omega)]
    have hle := start_v_le_end_v n size m (by omega)
    have hen := end_v_le n size m (by omega)
    have hb := hbufs m (by omega)
    constructor
    · rw [copySeg_length _ _ _ _ (by omega) (by omega)]
      exact ih1
    · intro i hi j hj1 hj2
      rw [copySeg_getD _ _ _ _ _ (by omega) (by omega)]
      rcases Nat.eq_or_lt_of_le (Nat.le_of_lt_succ hi) with h | h
      · subst h
        rw [if_pos (by omega)]
      · have := end_v_le_start_v n size i m (by omega) h
        rw [if_neg (by omega)]
        exact ih2 i h j hj1 hj2

theorem allgatherv_spec (bufs : List (List Nat)) (n size : Nat) (own : List Nat)
    (hsize : bufs.length = size) (hbufs : ∀ i, i < size → (bufs.getD i []).length = n)
    (hown : own.length = n) :
    (allgatherv bufs (recvcounts n size) (displs n size) own).length = n ∧
    ∀ i, i < size → ∀ j, start_v n size i ≤ j → j < end_v n size i →
      (allgatherv bufs (recvcounts n size) (displs n size) own).getD j 0 =
        (bufs.getD i []).getD j 0 := by
  unfold allgatherv
  rw [hsize]
  exact allgatherv_upto bufs n size own hbufs hown size (Nat.le_refl _)

theorem allgatherv_own (bufs : List (List Nat)) (n size : Nat) (own own2 : List Nat)
    (hs : 1 ≤ size) (hsize : bufs.length = size)
    (hbufs : ∀ i, i < size → (bufs.getD i []).length = n)
    (hown : own.length = n) (hown2 : own2.length = n) :
    allgatherv bufs (recvcounts n size) (displs n size) own =
      allgatherv bufs (recvcounts n size) (displs n size) own2 := by
  obtain ⟨a1, a2⟩ := allgatherv_spec bufs n size own hsize hbufs hown
  obtain ⟨b1, b2⟩ := allgatherv_spec bufs n size own2 hsize hbufs hown2
  apply ext_getD _ _ (by omega)
  intro j hj
  obtain ⟨i, hi, h1, h2⟩ := owner_exists n size j hs (by omega)
  rw [a2 i hi j h1 h2, b2 i hi j h1 h2]

/-! ## One round of the whole group, all processes holding the same graph -/

theorem localRelax_labels_length (g : Graph) (r size : Nat) :
    (localRelax g r size).1.labels.length = g.labels.length :=
  (relaxRange_RelaxInv g _ _ g.labels).1

theorem localBufs_getD (g : Graph) (size i : Nat) (hi : i < size) :
    ((List.range size).map (fun r => (localRelax g r size).1.labels)).getD i [] =
      (localRelax g i size).1.labels := by
  simp [List.getD_eq_getElem?_getD, List.getElem?_map, List.getElem?_range hi]

theorem gathered_spec (g : Graph) (size : Nat) (hl : g.labels.length = g.vertices) :
    (gathered g size).length = g.vertices ∧
    ∀ i, i < size → ∀ j, start_v g.vertices size i ≤ j → j < end_v g.vertices size i →
      (gathered g size).getD j 0 = (localRelax g i size).1.labels.getD j 0 := by
  have h := allgatherv_spec ((List.range size).map (fun r => (localRelax g r size).1.labels))
    g.vertices size g.labels (by simp)
    (fun i hi => by rw [localBufs_getD g size i hi, localRelax_labels_length, hl]) hl
  refine ⟨h.1, ?_⟩
  intro i hi j h1 h2
  have := h.2 i hi j h1 h2
  rw [localBufs_getD g size i hi] at this
  exact this

theorem hybridRound_replicate (g : Graph) (size : Nat) (hs : 1 ≤ size)
    (hl : g.labels.length = g.vertices) :
    hybridRound (List.replicate size g) = (List.replicate size (stepGraph g size), stepFlag g size) := by
  unfold hybridRound
  simp only [List.length_replicate]
  have hres : (List.range size).map
      (fun rank => localRelax ((List.replicate size g).getD rank (createGraph 0)) rank size) =
      (List.range size).map (fun rank => localRelax g rank size) := by
    apply List.map_congr_left
    intro rank hr
    have hr2 : rank < size := List.mem_range.1 hr
    simp [List.getD_eq_getElem?_getD, List.getElem?_replicate, hr2]
  rw [hres]
  simp only [List.map_map, Function.comp_def]
  refine Prod.ext ?_ rfl
  show List.map _ (List.range size) = List.replicate size (stepGraph g size)
  rw [List.eq_replicate_iff]
  refine ⟨by simp, ?_⟩
  intro b hb
  obtain ⟨r, hr, rfl⟩ := List.mem_map.1 hb
  have hr2 : r < size := List.mem_range.1 hr
  show ({ (localRelax g r size).1 with labels := _ } : Graph) = stepGraph g size
  unfold stepGraph gathered
  have e : allgatherv (List.map (fun r => (localRelax g r size).1.labels)
        (List.range size)) (recvcounts (localRelax g r size).1.vertices size)
        (displs (localRelax g r size).1.vertices size) (localRelax g r size).1.labels =
      allgatherv ((List.range size).map (fun r => (localRelax g r size).1.labels))
        (recvcounts g.vertices size) (displs g.vertices size) g.labels := by
    apply allgatherv_own _ g.vertices size _ _ hs (by simp)
    · intro i hi
      rw [localBufs_getD g size i hi, localRelax_labels_length, hl]
    · rw [localRelax_labels_length, hl]
    · exact hl
  rw [e]
  rfl

theorem stepGraph_labels_length (g : Graph) (size : Nat) (hl : g.labels.length = g.vertices) :
    (stepGraph g size).labels.length = (stepGraph g size).vertices :=
  (gathered_spec g size hl).1

theorem localRelax_le (g : Graph) (r size j : Nat) :
    (localRelax g r size).1.labels.getD j 0 ≤ g.labels.getD j 0 :=
  (relaxRange_RelaxInv g _ _ g.labels).2.1 j

theorem localRelax_outside (g : Graph) (r size j : Nat)
    (h : ¬ (start_v g.vertices size r ≤ j ∧ j < end_v g.vertices size r)) :
    (localRelax g r size).1.labels.getD j 0 = g.labels.getD j 0 :=
  (relaxRange_RelaxInv g _ _ g.labels).2.2.1 j h

theorem stepGraph_le (g : Graph) (size : Nat) (hs : 1 ≤ size)
    (hl : g.labels.length = g.vertices) (j : Nat) :
    (stepGraph g size).labels.getD j 0 ≤ g.labels.getD j 0 := by
  obtain ⟨h1, h2⟩ := gathered_spec g size hl
  show (gathered g size).getD j 0 ≤ _
  by_cases hj : j < g.vertices
  · obtain ⟨i, hi, a, b⟩ := owner_exists g.vertices size j hs hj
    rw [h2 i hi j a b]
    exact localRelax_le g i size j
  · rw [getD_of_le _ _ (by omega)]
    exact Nat.zero_le _

theorem stepGraph_Good (g : Graph) (size : Nat) (hs : 1 ≤ size) (hv : Valid g)
    (hl : g.labels.length = g.vertices) (hg : Good g g.labels) :
    Good (stepGraph g size) (stepGraph g size).labels := by
  obtain ⟨_, h2⟩ := gathered_spec g size hl
  intro j hj
  obtain ⟨i, hi, a, b⟩ := owner_exists g.vertices size j hs hj
  have h3 : (stepGraph g size).labels.getD j 0 = (localRelax g i size).1.labels.getD j 0 :=
    h2 i hi j a b
  rw [h3]
  exact relaxRange_Good g hv _ _ (end_v_le g.vertices size i hi) (g.labels, 0) hg j hj

theorem stepFlag_zero (g : Graph) (size : Nat) (hs : 1 ≤ size)
    (hl : g.labels.length = g.vertices) (h : stepFlag g size = 0) :
    stepGraph g size = g ∧ Converged g ∧ ∀ r, r < size → localRelax g r size = (g, 0) := by
  unfold stepFlag at h
  rw [allreduceMax_eq_zero] at h
  have hloc : ∀ r, r < size →
      relaxRange g (start_v g.vertices size r) (end_v g.vertices size r) (g.labels, 0)
        = (g.labels, 0) ∧
      ∀ v, start_v g.vertices size r ≤ v → v < end_v g.vertices size r →
        ∀ k, k < g.offsets.getD (v + 1) 0 → g.offsets.getD v 0 ≤ k →
          relaxSlot g.edges v (g.labels, 0) k = (g.labels, 0) := by
    intro r hr
    apply relaxRange_noop
    exact h _ (List.mem_map.2 ⟨r, List.mem_range.2 hr, rfl⟩)
  have hrel : ∀ r, r < size → localRelax g r size = (g, 0) := by
    intro r hr
    unfold localRelax
    simp only [(hloc r hr).1]
  obtain ⟨h1, h2⟩ := gathered_spec g size hl
  refine ⟨?_, ?_, hrel⟩
  · have : gathered g size = g.labels := by
      apply ext_getD _ _ (by omega)
      intro j hj
      obtain ⟨i, hi, a, b⟩ := owner_exists g.vertices size j hs (by omega)
      rw [h2 i hi j a b, hrel i hi]
    unfold stepGraph
    rw [this]
  · intro v hv k hk1 hk2
    obtain ⟨i, hi, a, b⟩ := owner_exists g.vertices size v hs hv
    exact (relaxSlot_fixed_iff g.edges v k g.labels).1 ((hloc i hi).2 v a b k hk1 hk2)

theorem stepFlag_of_converged (g : Graph) (size : Nat) (hc : Converged g) :
    stepFlag g size = 0 ∧ ∀ r, r < size → localRelax g r size = (g, 0) := by
  have hrel : ∀ r, r < size → localRelax g r size = (g, 0) := by
    intro r hr
    unfold localRelax
    have := relaxRange_fixed g (start_v g.vertices size r) (end_v g.vertices size r) g.labels
      (fun v _ hv2 k hk1 hk2 =>
        hc v (Nat.lt_of_lt_of_le hv2 (end_v_le g.vertices size r hr)) k hk1 hk2)
    simp only [this]
  refine ⟨?_, hrel⟩
  unfold stepFlag
  rw [allreduceMax_eq_zero]
  intro f hf
  obtain ⟨r, hr, rfl⟩ := List.mem_map.1 hf
  rw [hrel r (List.mem_range.1 hr)]

theorem stepFlag_nonzero (g : Graph) (size : Nat) (hl : g.labels.length = g.vertices)
    (h : stepFlag g size ≠ 0) :
    ∃ j, (stepGraph g size).labels.getD j 0 < g.labels.getD j 0 := by
  have h1 : ∃ r, r < size ∧ (localRelax g r size).2 ≠ 0 := by
    by_contra hno
    apply h
    unfold stepFlag
    rw [allreduceMax_eq_zero]
    intro f hf
    obtain ⟨r, hr, rfl⟩ := List.mem_map.1 hf
    by_contra hne
    exact hno ⟨r, List.mem_range.1 hr, hne⟩
  obtain ⟨r, hr, hne⟩ := h1
  obtain ⟨v, a, b, hlt⟩ := (relaxRange_RelaxInv g _ _ g.labels).2.2.2.1 hne
  refine ⟨v, ?_⟩
  have := (gathered_spec g size hl).2 r hr v a b
  show (gathered g size).getD v 0 < _
  rw [this]
  exact hlt

theorem sum_le_of_pointwise (l m : List Nat) (hlen : l.length = m.length)
    (h : ∀ i, l.getD i 0 ≤ m.getD i 0) : l.sum ≤ m.sum := by
  induction l generalizing m with
  | nil => simp
  | cons x t ih =>
    cases m with
    | nil => simp at hlen
    | cons y u =>
      have h0 : x ≤ y := by simpa using h 0
      have ht := ih u (by simpa using hlen) (fun i => by simpa using h (i + 1))
      simp only [List.sum_cons]
      omega

theorem sum_lt_of_pointwise (l m : List Nat) (hlen : l.length = m.length)
    (h : ∀ i, l.getD i 0 ≤ m.getD i 0) (j : Nat) (hj : l.getD j 0 < m.getD j 0) :
    l.sum < m.sum := by
  induction l generalizing m j with
  | nil =>
    have hm : m = [] := List.length_eq_zero.1 hlen.symm
    subst hm
    simp at hj
  | cons x t ih =>
    cases m with
    | nil => simp at hlen
    | cons y u =>
      have h0 : x ≤ y := by simpa using h 0
      have hle := sum_le_of_pointwise t u (by simpa using hlen) (fun i => by simpa using h (i + 1))
      simp only [List.sum_cons]
      cases j with
      | zero =>
        have : x < y := by simpa using hj
        omega
      | succ j =>
        have := ih u (by simpa using hlen) (fun i => by simpa using h (i + 1)) j
          (by simpa using hj)
        omega

/-! ## The round loop -/

theorem loop_step (fuel : Nat) (g : Graph) (size : Nat) (hs : 1 ≤ size)
    (hl : g.labels.length = g.vertices) :
    ColoringAlgorithmHybrid (fuel + 1) (List.replicate size g) =
      if stepFlag g size = 0 then some (List.replicate size (stepGraph g size), 1)
      else (ColoringAlgorithmHybrid fuel (List.replicate size (stepGraph g size))).map
        (fun out => (out.1, out.2 + 1)) := by
  show (let r := hybridRound (List.replicate size g);
    if r.2 = 0 then some (r.1, 1)
    else (ColoringAlgorithmHybrid fuel r.1).map (fun out => (out.1, out.2 + 1))) = _
  rw [hybridRound_replicate g size hs hl]

theorem loop_inv (P : Graph → Prop) (size : Nat) (hs : 1 ≤ size)
    (hP : ∀ g, P g → g.labels.length = g.vertices)
    (hstep : ∀ g, P g → P (stepGraph g size)) (fuel : Nat) (g : Graph) (hg : P g)
    (out : List Graph) (r : Nat)
    (hrun : ColoringAlgorithmHybrid fuel (List.replicate size g) = some (out, r)) :
    ∃ gf, out = List.replicate size gf ∧ P gf ∧ Converged gf := by
  induction fuel generalizing g out r with
  | zero => exact absurd hrun (by simp [ColoringAlgorithmHybrid])
  | succ fuel ih =>
    rw [loop_step fuel g size hs (hP g hg)] at hrun
    by_cases hf : stepFlag g size = 0
    · rw [if_pos hf] at hrun
      obtain ⟨h1, h2, _⟩ := stepFlag_zero g size hs (hP g hg) hf
      refine ⟨g, ?_, hg, h2⟩
      rw [h1] at hrun
      have := Option.some.inj hrun
      exact (congrArg Prod.fst this).symm
    · rw [if_neg hf] at hrun
      rcases hrec : ColoringAlgorithmHybrid fuel (List.replicate size (stepGraph g size)) with
        _ | ⟨o, q⟩
      · rw [hrec] at hrun
        exact absurd hrun (by simp)
      · rw [hrec] at hrun
        obtain ⟨gf, h1, h2, h3⟩ := ih (stepGraph g size) (hstep g hg) o q hrec
        refine ⟨gf, ?_, h2, h3⟩
        have := Option.some.inj hrun
        rw [← h1]
        exact (congrArg Prod.fst this).symm

theorem loop_terminates (size : Nat) (hs : 1 ≤ size) (N : Nat) (g : Graph)
    (hl : g.labels.length = g.vertices) (hN : g.labels.sum ≤ N) :
    ∃ out, ColoringAlgorithmHybrid (N + 1) (List.replicate size g) = some out := by
  induction N generalizing g with
  | zero =>
    rw [loop_step 0 g size hs hl]
    by_cases hf : stepFlag g size = 0
    · rw [if_pos hf]
      exact ⟨_, rfl⟩
    · obtain ⟨j, hj⟩ := stepFlag_nonzero g size hl hf
      have := sum_lt_of_pointwise _ _
        ((stepGraph_labels_length g size hl).trans hl.symm) (stepGraph_le g size hs hl) j hj
      omega
  | succ N ih =>
    rw [loop_step (N + 1) g size hs hl]
    by_cases hf : stepFlag g size = 0
    · rw [if_pos hf]
      exact ⟨_, rfl⟩
    · rw [if_neg hf]
      obtain ⟨j, hj⟩ := stepFlag_nonzero g size hl hf
      have := sum_lt_of_pointwise _ _
        ((stepGraph_labels_length g size hl).trans hl.symm) (stepGraph_le g size hs hl) j hj
      obtain ⟨o, ho⟩ := ih (stepGraph g size) (stepGraph_labels_length g size hl) (by omega)
      rw [ho]
      exact ⟨_, rfl⟩

theorem rounds_replicate (size : Nat) (hs : 1 ≤ size) (k : Nat) (g : Graph)
    (hl : g.labels.length = g.vertices) :
    rounds k (List.replicate size g) = List.replicate size (iterStep size k g) := by
  induction k generalizing g with
  | zero => rfl
  | succ k ih =>
    show rounds k (hybridRound (List.replicate size g)).1 = _
    rw [hybridRound_replicate g size hs hl]
    exact ih (stepGraph g size) (stepGraph_labels_length g size hl)

theorem iterStep_inv (P : Graph → Prop) (size : Nat) (hstep : ∀ g, P g → P (stepGraph g size))
    (k : Nat) (g : Graph) (hg : P g) : P (iterStep size k g) := by
  induction k generalizing g with
  | zero => exact hg
  | succ k ih => exact ih (stepGraph g size) (hstep g hg)

theorem getD_replicate_graph (size p : Nat) (g d : Graph) (hp : p < size) :
    (List.replicate size g).getD p d = g := by
  simp [List.getD_eq_getElem?_getD, List.getElem?_replicate, hp]

/-! ## Fixed points and connected components -/

theorem adj_lt (g : Graph) (hv : Valid g) (a b : Nat) (h : adj g a b) : b < g.vertices := by
  obtain ⟨ha, k, hk1, _, rfl⟩ := h
  exact slot_edge_lt g hv a k ha hk1

theorem adj_symm (g : Graph) (hsym : SymmetricStorage g) (a b : Nat) (h : adj g a b) :
    adj g b a := by
  obtain ⟨ha, k, hk1, hk2, rfl⟩ := h
  exact hsym a ha k hk1 hk2

theorem connected_lt (g : Graph) (hv : Valid g) (i j : Nat) (hi : i < g.vertices)
    (h : Connected g i j) : j < g.vertices := by
  induction h with
  | refl => exact hi
  | tail _ hstep _ =>
    rcases hstep with h1 | h1
    · exact adj_lt g hv _ _ h1
    · exact h1.1

theorem connected_symm (g : Graph) (i j : Nat) (h : Connected g i j) : Connected g j i := by
  induction h with
  | refl => exact Relation.ReflTransGen.refl
  | tail _ hstep ih => exact Relation.ReflTransGen.head hstep.symm ih

theorem converged_adj_le (g : Graph) (hc : Converged g) (a b : Nat) (h : adj g a b) :
    g.labels.getD a 0 ≤ g.labels.getD b 0 := by
  obtain ⟨ha, k, hk1, hk2, rfl⟩ := h
  exact hc a ha k hk1 hk2

theorem converged_connected_eq (g : Graph) (hsym : SymmetricStorage g) (hc : Converged g)
    (i j : Nat) (h : Connected g i j) : g.labels.getD i 0 = g.labels.getD j 0 := by
  induction h with
  | refl => rfl
  | tail _ hstep ih =>
    rw [ih]
    rcases hstep with h1 | h1
    · have a := converged_adj_le g hc _ _ h1
      have b := converged_adj_le g hc _ _ (adj_symm g hsym _ _ h1)
      omega
    · have a := converged_adj_le g hc _ _ h1
      have b := converged_adj_le g hc _ _ (adj_symm g hsym _ _ h1)
      omega

theorem fixpoint_isLeast (g : Graph) (hv : Valid g) (hsym : SymmetricStorage g)
    (hc : Converged g) (hg : Good g g.labels) (i : Nat) (hi : i < g.vertices) :
    IsLeast {j | Connected g i j} (g.labels.getD i 0) := by
  refine ⟨(hg i hi).2, ?_⟩
  intro j hj
  have h1 := converged_connected_eq g hsym hc i j hj
  have h2 := (hg j (connected_lt g hv i j hi hj)).1
  omega

theorem RunInv_length (g0 g : Graph) (h : RunInv g0 g) : g.labels.length = g.vertices := by
  obtain ⟨L, rfl, h1, _⟩ := h
  exact h1

theorem RunInv_step (g0 : Graph) (hv : Valid g0) (size : Nat) (hs : 1 ≤ size) (g : Graph)
    (h : RunInv g0 g) : RunInv g0 (stepGraph g size) := by
  obtain ⟨L, rfl, h1, h2⟩ := h
  exact ⟨gathered { g0 with labels := L } size, rfl,
    stepGraph_labels_length { g0 with labels := L } size h1,
    stepGraph_Good { g0 with labels := L } size hs hv h1 h2⟩

theorem good_identity (g : Graph) : Good g (List.range g.vertices) := by
  intro i hi
  have : (List.range g.vertices).getD i 0 = i := by
    simp [List.getD_eq_getElem?_getD, List.getElem?_range hi]
  rw [this]
  exact ⟨Nat.le_refl _, Relation.ReflTransGen.refl⟩

theorem RunInv_init (g : Graph) (hid : g.labels = List.range g.vertices) : RunInv g g :=
  ⟨List.range g.vertices, by rw [← hid], by simp, good_identity g⟩

theorem run_from_identity (g : Graph) (size : Nat) (hv : Valid g)
    (hid : g.labels = List.range g.vertices) (hs : 1 ≤ size) :
    (∃ fuel out, ColoringAlgorithmHybrid fuel (List.replicate size g) = some out) ∧
    ∀ fuel out r, ColoringAlgorithmHybrid fuel (List.replicate size g) = some (out, r) →
      ∃ L, out = List.replicate size { g with labels := L } ∧ L.length = g.vertices ∧
        Good g L ∧ Converged { g with labels := L } := by
  constructor
  · obtain ⟨out, h⟩ := loop_terminates size hs g.labels.sum g (by rw [hid]; simp) (Nat.le_refl _)
    exact ⟨_, out, h⟩
  · intro fuel out r hrun
    obtain ⟨gf, h1, ⟨L, rfl, h2, h3⟩, h4⟩ := loop_inv (RunInv g) size hs (RunInv_length g)
      (RunInv_step g hv size hs) fuel g (RunInv_init g hid) out r hrun
    exact ⟨L, h1, h2, h3, h4⟩

theorem foldl_count (p : Nat → Prop) [DecidablePred p] (xs : List Nat) (a : Nat) :
    xs.foldl (fun comps i => if p i then comps + 1 else comps) a
      = a + xs.countP (fun i => decide (p i)) := by
  induction xs generalizing a with
  | nil => simp
  | cons x t ih =>
    simp only [List.foldl_cons, List.countP_cons]
    rw [ih]
    by_cases hx : p x
    · simp [hx]; omega
    · simp [hx]

theorem countComponents_eq_card (g : Graph) :
    countComponents g =
      Nat.card { k : Nat // k < g.vertices ∧ g.labels.getD k 0 = k } := by
  letI := Nat.CountSet.fintype (fun k => g.labels.getD k 0 = k) g.vertices
  rw [Nat.card_eq_fintype_card, ← Nat.count_eq_card_fintype]
  unfold countComponents Nat.count
  rw [foldl_count (fun i => g.labels.getD i 0 = i)]
  simp

theorem roots_card (g : Graph) (hsym : SymmetricStorage g)
    (hc : Converged g) (hg : Good g g.labels) :
    Nat.card { k : Nat // k < g.vertices ∧ g.labels.getD k 0 = k } =
      Nat.card (Quotient (compSetoid g)) := by
  apply Nat.card_eq_of_bijective
    (fun k : { k : Nat // k < g.vertices ∧ g.labels.getD k 0 = k } =>
      (Quotient.mk (compSetoid g) ⟨k.1, k.2.1⟩))
  constructor
  · intro a b hab
    have h1 : Connected g a.1 b.1 := Quotient.exact hab
    have h2 := converged_connected_eq g hsym hc a.1 b.1 h1
    apply Subtype.ext
    have ha := a.2.2
    have hb := b.2.2
    omega
  · intro q
    induction q using Quotient.inductionOn with
    | h x =>
      have hx := hg x.1 x.2
      have hlt : g.labels.getD x.1 0 < g.vertices := by have := x.2; omega
      have hroot : g.labels.getD (g.labels.getD x.1 0) 0 = g.labels.getD x.1 0 :=
        (converged_connected_eq g hsym hc _ _ hx.2).symm
      refine ⟨⟨g.labels.getD x.1 0, hlt, hroot⟩, ?_⟩
      apply Quotient.sound
      exact connected_symm g _ _ hx.2

theorem relaxRange_succ (g : Graph) (s m : Nat) (h : s ≤ m) (st : List Nat × Nat) :
    relaxRange g s (m + 1) st = relaxVertex g (relaxRange g s m st) m := by
  unfold relaxRange
  have e : m + 1 - s = (m - s) + 1 := by omega
  rw [e, List.range'_1_concat, List.foldl_append]
  have e2 : s + (m - s) = m := by omega
  simp [e2]

theorem relaxPartial_full (g : Graph) (s m : Nat) (h : s ≤ m) (st : List Nat × Nat) :
    relaxPartial g s m (g.offsets.getD (m + 1) 0 - g.offsets.getD m 0) st
      = relaxRange g s (m + 1) st := by
  rw [relaxRange_succ g s m h]
  rfl

theorem relaxPartial_Good (g : Graph) (hv : Valid g) (s m j : Nat) (hm : m < g.vertices)
    (hj : j ≤ g.offsets.getD (m + 1) 0 - g.offsets.getD m 0) (c : List Nat × Nat)
    (hc : Good g c.1) : Good g (relaxPartial g s m j c).1 := by
  unfold relaxPartial
  apply foldl_inv (fun st : List Nat × Nat => Good g st.1) (relaxSlot g.edges m)
  · exact relaxRange_Good g hv s m (by omega) c hc
  · intro d k hk hd
    rw [List.mem_range'_1] at hk
    exact relaxSlot_Good g hv m k d hm (by omega) hk.1 hd

theorem iterStep_succ (size k : Nat) (g : Graph) :
    iterStep size (k + 1) g = stepGraph (iterStep size k g) size := by
  induction k generalizing g with
  | zero => rfl
  | succ k ih =>
    show iterStep size (k + 1) (stepGraph g size) = _
    rw [ih]
    rfl

theorem iterStep_length (size k : Nat) (g : Graph) (hl : g.labels.length = g.vertices) :
    (iterStep size k g).labels.length = (iterStep size k g).vertices :=
  iterStep_inv (fun g => g.labels.length = g.vertices) size
    (fun g h => stepGraph_labels_length g size h) k g hl

theorem stepGraph_le_local (g : Graph) (size : Nat) (hs : 1 ≤ size)
    (hl : g.labels.length = g.vertices) (p v : Nat) (hp : p < size) :
    (stepGraph g size).labels.getD v 0 ≤ (localRelax g p size).1.labels.getD v 0 := by
  obtain ⟨h1, h2⟩ := gathered_spec g size hl
  show (gathered g size).getD v 0 ≤ _
  by_cases hv : v < g.vertices
  · by_cases hin : start_v g.vertices size p ≤ v ∧ v < end_v g.vertices size p
    · rw [h2 p hp v hin.1 hin.2]
    · obtain ⟨i, hi, a, b⟩ := owner_exists g.vertices size v hs hv
      rw [h2 i hi v a b, localRelax_outside g p size v hin]
      exact localRelax_le g i size v
  · rw [getD_of_le _ _ (by omega)]
    exact Nat.zero_le _

theorem recvcounts_prefix_sum (n size m : Nat) (hm : m ≤ size) :
    ((List.range m).map (fun i => end_v n size i - start_v n size i)).sum = start_v n size m ∨
    (m = size ∧ 1 ≤ size ∧
      ((List.range m).map (fun i => end_v n size i - start_v n size i)).sum = n) := by
  induction m with
  | zero =>
    left
    simp [start_v]
  | succ m ih =>
    have hprev : ((List.range m).map (fun i => end_v n size i - start_v n size i)).sum
        = start_v n size m := by
      rcases ih (by omega) with h | ⟨h, _⟩
      · exact h
      · omega
    have hle := start_v_le_end_v n size m (by omega)
    rw [List.range_succ, List.map_append, List.sum_append, hprev]
    simp only [List.map_cons, List.map_nil, List.sum_cons, List.sum_nil, Nat.add_zero]
    by_cases h : m + 1 = size
    · right
      refine ⟨h, by omega, ?_⟩
      have e : m = size - 1 := by omega
      have := end_v_last n size
      rw [← e] at this
      omega
    · left
      have := end_v_eq_start_v_succ n size m (by omega)
      omega

theorem recvcounts_sum (n size : Nat) (hs : 1 ≤ size) : (recvcounts n size).sum = n := by
  show ((List.range size).map (fun i => end_v n size i - start_v n size i)).sum = n
  rcases recvcounts_prefix_sum n size size (Nat.le_refl _) with h | ⟨_, _, h⟩
  · have h1 := start_v_le_end_v n size (size - 1) (by omega)
    have h2 := end_v_last n size
    have h3 : size - 1 < size := by omega
    have h4 := recvcounts_prefix_sum n size (size - 1) (by omega)
    have e : size = (size - 1) + 1 := by omega
    rw [e, List.range_succ, List.map_append, List.sum_append] at h ⊢
    simp only [List.map_cons, List.map_nil, List.sum_cons, List.sum_nil, Nat.add_zero] at h ⊢
    rcases h4 with h5 | ⟨h5, _⟩
    · rw [← e] at h ⊢
      rw [h5] at h ⊢
      omega
    · omega
  · exact h

theorem converged_round (g : Graph) (size : Nat) (hs : 1 ≤ size)
    (hl : g.labels.length = g.vertices) (hc : Converged g) :
    (∀ p, p < size → localRelax g p size = (g, 0)) ∧
    hybridRound (List.replicate size g) = (List.replicate size g, 0) ∧
    ∀ fuel, ColoringAlgorithmHybrid (fuel + 1) (List.replicate size g)
      = some (List.replicate size g, 1) := by
  obtain ⟨h1, h2⟩ := stepFlag_of_converged g size hc
  obtain ⟨h3, _, _⟩ := stepFlag_zero g size hs hl h1
  refine ⟨h2, ?_, ?_⟩
  · rw [hybridRound_replicate g size hs hl, h1, h3]
  · intro fuel
    rw [loop_step fuel g size hs hl, if_pos h1, h3]

theorem getD_replicate_zero (m i : Nat) : (List.replicate m 0).getD i 0 = 0 := by
  simp only [List.getD_eq_getElem?_getD, List.getElem?_replicate]
  split <;> rfl

theorem getD_range (n i : Nat) (hi : i < n) : (List.range n).getD i 0 = i := by
  simp [List.getD_eq_getElem?_getD, List.getElem?_range hi]

theorem countComponents_identity (g : Graph) (hid : g.labels = List.range g.vertices) :
    countComponents g = g.vertices := by
  unfold countComponents
  rw [foldl_count (fun i => g.labels.getD i 0 = i), Nat.zero_add]
  have : List.countP (fun i => decide (g.labels.getD i 0 = i)) (List.range g.vertices)
      = (List.range g.vertices).length := by
    rw [List.countP_eq_length]
    intro a ha
    rw [hid, getD_range _ _ (List.mem_range.1 ha)]
    simp
  rw [this, List.length_range]

theorem clique_index_connected (g : Graph) (hv : Valid g) (c : Nat → Nat)
    (hadj : ∀ v, v < g.vertices → ∀ u, u < g.vertices → (adj g v u ↔ (c v = c u ∧ v ≠ u)))
    (v w : Nat) (hvn : v < g.vertices) (h : Connected g v w) :
    w < g.vertices ∧ c v = c w := by
  induction h with
  | refl => exact ⟨hvn, rfl⟩
  | tail _ hstep ih =>
    obtain ⟨h1, h2⟩ := ih
    rcases hstep with h3 | h3
    · have hw := adj_lt g hv _ _ h3
      exact ⟨hw, h2.trans ((hadj _ h1 _ hw).1 h3).1⟩
    · have hw := h3.1
      exact ⟨hw, h2.trans ((hadj _ hw _ h1).1 h3).1.symm⟩

theorem clique_symmetric (g : Graph) (hv : Valid g) (c : Nat → Nat)
    (hadj : ∀ v, v < g.vertices → ∀ u, u < g.vertices → (adj g v u ↔ (c v = c u ∧ v ≠ u))) :
    SymmetricStorage g := by
  intro v hvn k hk1 hk2
  have hu := slot_edge_lt g hv v k hvn hk1
  have h1 : adj g v (g.edges.getD k 0) := ⟨hvn, k, hk1, hk2, rfl⟩
  obtain ⟨a, b⟩ := (hadj v hvn _ hu).1 h1
  exact (hadj _ hu v hvn).2 ⟨a.symm, fun e => b e.symm⟩

theorem clique_roots_card (g : Graph) (hv : Valid g) (k : Nat) (c : Nat → Nat)
    (hck : ∀ v, v < g.vertices → c v < k)
    (hsurj : ∀ q, q < k → ∃ v, v < g.vertices ∧ c v = q)
    (hadj : ∀ v, v < g.vertices → ∀ u, u < g.vertices → (adj g v u ↔ (c v = c u ∧ v ≠ u)))
    (hc : Converged g) (hg : Good g g.labels) :
    Nat.card { i : Nat // i < g.vertices ∧ g.labels.getD i 0 = i } = k := by
  have hsym := clique_symmetric g hv c hadj
  have hb : Nat.card { i : Nat // i < g.vertices ∧ g.labels.getD i 0 = i } = Nat.card (Fin k) := by
    apply Nat.card_eq_of_bijective
      (fun i : { i : Nat // i < g.vertices ∧ g.labels.getD i 0 = i } =>
        (⟨c i.1, hck i.1 i.2.1⟩ : Fin k))
    constructor
    · intro a b hab
      have hcab : c a.1 = c b.1 := congrArg Fin.val hab
      apply Subtype.ext
      by_contra hne
      have h1 : adj g a.1 b.1 := (hadj a.1 a.2.1 b.1 b.2.1).2 ⟨hcab, hne⟩
      have h2 := converged_connected_eq g hsym hc a.1 b.1
        (Relation.ReflTransGen.single (Or.inl h1))
      have ha := a.2.2
      have hb := b.2.2
      omega
    · intro q
      obtain ⟨v, hvn, hcv⟩ := hsurj q.1 q.2
      have hx := hg v hvn
      obtain ⟨hlt, hcl⟩ := clique_index_connected g hv c hadj v _ hvn hx.2
      have hroot : g.labels.getD (g.labels.getD v 0) 0 = g.labels.getD v 0 :=
        (converged_connected_eq g hsym hc _ _ hx.2).symm
      refine ⟨⟨g.labels.getD v 0, hlt, hroot⟩, ?_⟩
      apply Fin.ext
      show c (g.labels.getD v 0) = q.1
      rw [← hcl, hcv]
  rw [hb, Nat.card_eq_fintype_card, Fintype.card_fin]

/-! ## Distribution of the graph -/

theorem to_send_bounds (ne off : Nat) (h : off < ne) :
    1 ≤ to_send ne off ∧ to_send ne off ≤ chunk ∧ off + to_send ne off ≤ ne := by
  simp only [to_send, chunk]
  split <;> omega

theorem to_send_full (ne off : Nat) (h : off + to_send ne off < ne) :
    to_send ne off = chunk := by
  simp only [to_send, chunk] at h ⊢
  split
  · rfl
  · rename_i hh
    rw [if_neg hh] at h
    omega

theorem chunkPlan_pos (ne off : Nat) (h : off < ne) :
    chunkPlan ne off = (off, to_send ne off) :: chunkPlan ne (off + to_send ne off) := by
  rw [chunkPlan, if_pos h]

theorem chunkPlan_neg (ne off : Nat) (h : ¬ off < ne) : chunkPlan ne off = [] := by
  rw [chunkPlan, if_neg h]

theorem bcastEdges_pos (ne : Nat) (src : List Nat) (off : Nat) (dst : List Nat) (h : off < ne) :
    bcastEdges ne src off dst =
      bcastEdges ne src (off + to_send ne off) (copySeg src dst off (to_send ne off)) := by
  rw [bcastEdges, if_pos h]

theorem bcastEdges_neg (ne : Nat) (src : List Nat) (off : Nat) (dst : List Nat) (h : ¬ off < ne) :
    bcastEdges ne src off dst = dst := by
  rw [bcastEdges, if_neg h]

theorem chunkPlan_head (ne off : Nat) (c : Nat × Nat) (h : (chunkPlan ne off).head? = some c) :
    c.1 = off := by
  by_cases hlt : off < ne
  · rw [chunkPlan_pos ne off hlt] at h
    simp only [List.head?_cons, Option.some.injEq] at h
    rw [← h]
  · rw [chunkPlan_neg ne off hlt] at h
    simp at h

theorem chunkPlan_props (ne d : Nat) : ∀ off, ne - off = d →
    (∀ c, c ∈ chunkPlan ne off → off ≤ c.1 ∧ 1 ≤ c.2 ∧ c.2 ≤ chunk ∧ c.1 + c.2 ≤ ne) ∧
    ((chunkPlan ne off).map Prod.snd).sum = ne - off ∧
    List.Chain' (fun a b : Nat × Nat => b.1 = a.1 + a.2 ∧ a.2 = chunk) (chunkPlan ne off) ∧
    (∀ c, (chunkPlan ne off).getLast? = some c → c.1 + c.2 = ne) := by
  induction d using Nat.strong_induction_on with
  | _ d ih =>
    intro off hd
    by_cases hlt : off < ne
    · obtain ⟨t1, t2, t3⟩ := to_send_bounds ne off hlt
      obtain ⟨a, b, c, e⟩ := ih (ne - (off + to_send ne off)) (by omega)
        (off + to_send ne off) rfl
      rw [chunkPlan_pos ne off hlt]
      refine ⟨?_, ?_, ?_, ?_⟩
      · intro x hx
        rcases List.mem_cons.1 hx with rfl | hx
        · exact ⟨Nat.le_refl _, t1, t2, t3⟩
        · have := a x hx
          omega
      · simp only [List.map_cons, List.sum_cons]
        rw [b]
        omega
      · rw [List.chain'_cons']
        refine ⟨?_, c⟩
        intro y hy
        have hy2 : (chunkPlan ne (off + to_send ne off)).head? = some y := by
          simpa using hy
        have h1 := chunkPlan_head ne _ y hy2
        refine ⟨h1, ?_⟩
        apply to_send_full
        by_contra hge
        rw [chunkPlan_neg ne _ hge] at hy2
        simp at hy2
      · intro x hx
        by_cases hnext : off + to_send ne off < ne
        · have hp := chunkPlan_pos ne _ hnext
          rw [hp, List.getLast?_cons_cons, ← hp] at hx
          exact e x hx
        · rw [chunkPlan_neg ne _ hnext] at hx
          simp only [List.getLast?_singleton, Option.some.injEq] at hx
          rw [← hx]
          show off + to_send ne off = ne
          omega
    · rw [chunkPlan_neg ne off hlt]
      refine ⟨by simp, by simp; omega, by simp, by simp⟩

theorem bcastEdges_eq_plan (ne : Nat) (src : List Nat) (d : Nat) : ∀ off dst, ne - off = d →
    bcastEdges ne src off dst =
      (chunkPlan ne off).foldl (fun buf c => copySeg src buf c.1 c.2) dst := by
  induction d using Nat.strong_induction_on with
  | _ d ih =>
    intro off dst hd
    by_cases hlt : off < ne
    · obtain ⟨t1, _, _⟩ := to_send_bounds ne off hlt
      rw [bcastEdges_pos ne src off dst hlt, chunkPlan_pos ne off hlt, List.foldl_cons]
      exact ih (ne - (off + to_send ne off)) (by omega) _ _ rfl
    · rw [bcastEdges_neg ne src off dst hlt, chunkPlan_neg ne off hlt]
      rfl

theorem bcastEdges_spec (ne : Nat) (src : List Nat) (hsrc : src.length = ne) (d : Nat) :
    ∀ off dst, ne - off = d → dst.length = ne →
      (bcastEdges ne src off dst).length = ne ∧
      ∀ j, (bcastEdges ne src off dst).getD j 0 =
        if off ≤ j then src.getD j 0 else dst.getD j 0 := by
  induction d using Nat.strong_induction_on with
  | _ d ih =>
    intro off dst hd hdst
    by_cases hlt : off < ne
    · obtain ⟨t1, _, t3⟩ := to_send_bounds ne off hlt
      rw [bcastEdges_pos ne src off dst hlt]
      have hlen := copySeg_length src dst off (to_send ne off) (by omega) (by omega)
      obtain ⟨a, b⟩ := ih (ne - (off + to_send ne off)) (by omega) (off + to_send ne off)
        (copySeg src dst off (to_send ne off)) rfl (by omega)
      refine ⟨a, ?_⟩
      intro j
      rw [b j, copySeg_getD src dst off (to_send ne off) j (by omega) (by omega)]
      by_cases h1 : off + to_send ne off ≤ j
      · rw [if_pos h1, if_pos (by omega)]
      · rw [if_neg h1]
        by_cases h2 : off ≤ j
        · rw [if_pos ⟨h2, by omega⟩, if_pos h2]
        · rw [if_neg (fun h => h2 h.1), if_neg h2]
    · rw [bcastEdges_neg ne src off dst hlt]
      refine ⟨hdst, ?_⟩
      intro j
      by_cases h2 : off ≤ j
      · rw [if_pos h2, getD_of_le src j (by omega), getD_of_le dst j (by omega)]
      · rw [if_neg h2]

theorem bcastEdges_copies (ne : Nat) (src dst : List Nat) (hsrc : src.length = ne)
    (hdst : dst.length = ne) : bcastEdges ne src 0 dst = src := by
  obtain ⟨a, b⟩ := bcastEdges_spec ne src hsrc (ne - 0) 0 dst rfl hdst
  apply ext_getD _ _ (by omega)
  intro j _
  rw [b j, if_pos (Nat.zero_le j)]

theorem copySeg_all (src dst : List Nat) (m : Nat) (hsrc : src.length = m)
    (hdst : dst.length = m) : copySeg src dst 0 m = src := by
  have hlen := copySeg_length src dst 0 m (by omega) (by omega)
  apply ext_getD _ _ (by omega)
  intro j hj
  rw [copySeg_getD src dst 0 m j (by omega) (by omega), if_pos (by omega)]

theorem BroadcastGraph_ok (g : Graph) (rank : Nat) (junk : Nat → Nat) (hn : 1 ≤ g.vertices)
    (hoff : g.offsets.length = g.vertices + 1) (hed : g.edges.length = g.num_edges) :
    BroadcastGraph (some g) rank junk =
      Except.ok (if rank = 0 then g else { g with labels := List.range g.vertices }) := by
  unfold BroadcastGraph
  have hpos : ¬ ((g.vertices : Int) ≤ 0) := by omega
  simp only [hpos, if_false]
  by_cases hr : rank = 0
  · simp only [hr, if_true]
    rw [copySeg_all g.offsets g.offsets (g.vertices + 1) hoff hoff,
      bcastEdges_copies g.num_edges g.edges g.edges hed hed]
  · simp only [hr, if_false]
    rw [copySeg_all g.offsets (createGraph g.vertices).offsets (g.vertices + 1) hoff
        (by simp [createGraph]),
      bcastEdges_copies g.num_edges g.edges _ hed (by simp)]
    rfl

theorem BroadcastGroup_getD (g0 : Option Graph) (size : Nat) (junk : Nat → Nat → Nat)
    (rank : Nat) (hr : rank < size) (d : Except Nat Graph) :
    (BroadcastGroup g0 size junk).getD rank d = BroadcastGraph g0 rank (junk rank) := by
  simp [BroadcastGroup, List.getD_eq_getElem?_getD, List.getElem?_map, List.getElem?_range hr]

/-! ## The loop as a sequence of rounds -/

theorem rounds_succ_last (k : Nat) (gs : List Graph) :
    rounds (k + 1) gs = (hybridRound (rounds k gs)).1 := by
  induction k generalizing gs with
  | zero => rfl
  | succ k ih =>
    show rounds (k + 1) (hybridRound gs).1 = _
    rw [ih]
    rfl

theorem loop_unfold (fuel : Nat) (gs : List Graph) :
    ColoringAlgorithmHybrid (fuel + 1) gs =
      if (hybridRound gs).2 = 0 then some ((hybridRound gs).1, 1)
      else (ColoringAlgorithmHybrid fuel (hybridRound gs).1).map
        (fun out => (out.1, out.2 + 1)) := rfl

theorem loop_char (fuel : Nat) : ∀ (gs out : List Graph) (r : Nat),
    ColoringAlgorithmHybrid fuel gs = some (out, r) ↔
      (1 ≤ r ∧ r ≤ fuel ∧ out = rounds r gs ∧ (hybridRound (rounds (r - 1) gs)).2 = 0 ∧
        ∀ k, k + 1 < r → (hybridRound (rounds k gs)).2 ≠ 0) := by
  induction fuel with
  | zero =>
    intro gs out r
    constructor
    · intro h
      exact absurd h (by simp [ColoringAlgorithmHybrid])
    · rintro ⟨h1, h2, _⟩
      omega
  | succ fuel ih =>
    intro gs out r
    rw [loop_unfold]
    by_cases hf : (hybridRound gs).2 = 0
    · rw [if_pos hf]
      constructor
      · intro h
        have h2 := Option.some.inj h
        have e1 : out = (hybridRound gs).1 := (congrArg Prod.fst h2).symm
        have e2 : r = 1 := (congrArg Prod.snd h2).symm
        subst e2
        refine ⟨Nat.le_refl _, by omega, e1, hf, ?_⟩
        intro k hk
        omega
      · rintro ⟨h1, _, h3, _, h5⟩
        have hr : r = 1 := by
          by_contra hne
          exact h5 0 (by omega) hf
        subst hr
        rw [h3]
        rfl
    · rw [if_neg hf]
      constructor
      · intro h
        rcases hrec : ColoringAlgorithmHybrid fuel (hybridRound gs).1 with _ | ⟨o, q⟩
        · rw [hrec] at h
          exact absurd h (by simp)
        · rw [hrec] at h
          have h2 := Option.some.inj h
          have e1 : out = o := (congrArg Prod.fst h2).symm
          have e2 : r = q + 1 := (congrArg Prod.snd h2).symm
          obtain ⟨a, b, c, d, e⟩ := (ih (hybridRound gs).1 o q).1 hrec
          subst e1 e2
          refine ⟨by omega, by omega, c, ?_, ?_⟩
          · have e3 : q + 1 - 1 = (q - 1) + 1 := by omega
            rw [e3]
            exact d
          · intro k hk
            cases k with
            | zero => exact hf
            | succ k => exact e k (by omega)
      · rintro ⟨h1, h2, h3, h4, h5⟩
        have hr : 2 ≤ r := by
          by_contra hlt
          have e : r = 1 := by omega
          subst e
          exact hf h4
        obtain ⟨q, rfl⟩ : ∃ q, r = q + 1 := ⟨r - 1, by omega⟩
        have hq := (ih (hybridRound gs).1 out q).2
          ⟨by omega, by omega, h3, by
            have e3 : q + 1 - 1 = (q - 1) + 1 := by omega
            rw [e3] at h4
            exact h4, fun k hk => h5 (k + 1) (by omega)⟩
        rw [hq]
        rfl

theorem loop_result_unique (gs : List Graph) (f1 f2 : Nat) (o1 o2 : List Graph) (r1 r2 : Nat)
    (h1 : ColoringAlgorithmHybrid f1 gs = some (o1, r1))
    (h2 : ColoringAlgorithmHybrid f2 gs = some (o2, r2)) : o1 = o2 ∧ r1 = r2 := by
  obtain ⟨a1, _, c1, d1, e1⟩ := (loop_char f1 gs o1 r1).1 h1
  obtain ⟨a2, _, c2, d2, e2⟩ := (loop_char f2 gs o2 r2).1 h2
  have hr : r1 = r2 := by
    rcases Nat.lt_trichotomy r1 r2 with h | h | h
    · exact absurd d1 (e2 (r1 - 1) (by omega))
    · exact h
    · exact absurd d2 (e1 (r2 - 1) (by omega))
  subst hr
  exact ⟨c1.trans c2.symm, rfl⟩

theorem allreduceMax_le (flags : List Nat) (a b : Nat) (ha : a ≤ b)
    (h : ∀ f, f ∈ flags → f ≤ b) : flags.foldl max a ≤ b := by
  induction flags generalizing a with
  | nil => simpa using ha
  | cons x t ih =>
    simp only [List.foldl_cons]
    apply ih
    · have := h x (by simp)
      exact Nat.max_le.2 ⟨ha, this⟩
    · intro f hf
      exact h f (by simp [hf])

theorem localRelax_flag_le (g : Graph) (p size : Nat) : (localRelax g p size).2 ≤ 1 :=
  (relaxRange_RelaxInv g _ _ g.labels).2.2.2.2.2

theorem localRelax_flag_iff (g : Graph) (p size : Nat) :
    (localRelax g p size).2 = 1 ↔
      ∃ v, start_v g.vertices size p ≤ v ∧ v < end_v g.vertices size p ∧
        (localRelax g p size).1.labels.getD v 0 ≠ g.labels.getD v 0 := by
  obtain ⟨_, _, _, h4, h5, h6⟩ := relaxRange_RelaxInv g (start_v g.vertices size p)
    (end_v g.vertices size p) g.labels
  constructor
  · intro h
    have hne : (relaxRange g (start_v g.vertices size p) (end_v g.vertices size p)
        (g.labels, 0)).2 ≠ 0 := by
      have : (relaxRange g (start_v g.vertices size p) (end_v g.vertices size p)
        (g.labels, 0)).2 = 1 := h
      omega
    obtain ⟨v, a, b, c⟩ := h4 hne
    exact ⟨v, a, b, Nat.ne_of_lt c⟩
  · rintro ⟨v, _, _, c⟩
    have hle : (localRelax g p size).2 ≤ 1 := h6
    by_contra hne
    have h0 : (relaxRange g (start_v g.vertices size p) (end_v g.vertices size p)
        (g.labels, 0)).2 = 0 := by
      have : (relaxRange g (start_v g.vertices size p) (end_v g.vertices size p)
        (g.labels, 0)).2 = (localRelax g p size).2 := rfl
      omega
    apply c
    show (relaxRange g (start_v g.vertices size p) (end_v g.vertices size p)
        (g.labels, 0)).1.getD v 0 = _
    rw [h5 h0]

theorem stepFlag_le (g : Graph) (size : Nat) : stepFlag g size ≤ 1 := by
  unfold stepFlag allreduceMax
  apply allreduceMax_le _ 0 1 (by omega)
  intro f hf
  obtain ⟨r, _, rfl⟩ := List.mem_map.1 hf
  exact localRelax_flag_le g r size

theorem stepFlag_eq_one_iff (g : Graph) (size : Nat) :
    stepFlag g size = 1 ↔ ∃ p, p < size ∧ (localRelax g p size).2 = 1 := by
  have hle := stepFlag_le g size
  constructor
  · intro h
    by_contra hno
    have : stepFlag g size = 0 := by
      unfold stepFlag
      rw [allreduceMax_eq_zero]
      intro f hf
      obtain ⟨r, hr, rfl⟩ := List.mem_map.1 hf
      have h1 := localRelax_flag_le g r size
      by_contra hne
      exact hno ⟨r, List.mem_range.1 hr, by omega⟩
    omega
  · rintro ⟨p, hp, h1⟩
    by_contra hne
    have h0 : stepFlag g size = 0 := by omega
    unfold stepFlag at h0
    rw [allreduceMax_eq_zero] at h0
    have := h0 _ (List.mem_map.2 ⟨p, List.mem_range.2 hp, rfl⟩)
    omega

theorem memOf_rounds (g : Graph) (size : Nat) (hs : 1 ≤ size)
    (hl : g.labels.length = g.vertices) (k p : Nat) (hp : p < size) :
    memOf (rounds k (List.replicate size g)) p = iterStep size k g := by
  unfold memOf
  rw [rounds_replicate size hs k g hl, getD_replicate_graph size p _ _ hp]

theorem roundFlag_replicate (g : Graph) (size : Nat) (hs : 1 ≤ size)
    (hl : g.labels.length = g.vertices) (k : Nat) :
    (hybridRound (rounds k (List.replicate size g))).2 = stepFlag (iterStep size k g) size := by
  rw [rounds_replicate size hs k g hl,
    hybridRound_replicate _ size hs (iterStep_length size k g hl)]

/-! ## One hop per round -/

theorem foldl_reach {α β : Type} (P Q : β → Prop) (f : β → α → β) (xs : List α) (x : α)
    (hx : x ∈ xs) (hP : ∀ c y, P c → P (f c y)) (hQ : ∀ c y, Q c → Q (f c y))
    (hstep : ∀ c, P c → Q (f c x)) (b : β) (hb : P b) : Q (xs.foldl f b) := by
  induction xs generalizing b with
  | nil => simp at hx
  | cons y t ih =>
    simp only [List.foldl_cons]
    rcases List.mem_cons.1 hx with h | h
    · subst h
      exact foldl_inv Q f t _ (hstep b hb) (fun c z _ hc => hQ c z hc)
    · exact ih h (f b y) (hP b y hb)

theorem relaxSlot_le (edges : List Nat) (v k : Nat) (c : List Nat × Nat) (i : Nat) :
    (relaxSlot edges v c k).1.getD i 0 ≤ c.1.getD i 0 := by
  by_cases hcond : c.1.getD v 0 > c.1.getD (edges.getD k 0) 0
  · rw [relaxSlot_pos edges v k c hcond]
    show (c.1.set v _).getD i 0 ≤ _
    rw [getD_set]
    split
    · rename_i hh
      obtain ⟨rfl, _⟩ := hh
      omega
    · exact Nat.le_refl _
  · rw [relaxSlot_neg edges v k c hcond]

theorem relaxSlot_target (edges : List Nat) (v k : Nat) (c : List Nat × Nat) :
    (relaxSlot edges v c k).1.getD v 0 ≤ c.1.getD (edges.getD k 0) 0 := by
  by_cases hcond : c.1.getD v 0 > c.1.getD (edges.getD k 0) 0
  · rw [relaxSlot_pos edges v k c hcond]
    have hv : v < c.1.length := by
      by_contra hlt
      have := getD_of_le c.1 v (by omega)
      omega
    show (c.1.set v _).getD v 0 ≤ _
    rw [getD_set, if_pos ⟨rfl, hv⟩]
  · rw [relaxSlot_neg edges v k c hcond]
    omega

theorem relaxRange_le_neighbor (g : Graph) (s e v k : Nat) (L : List Nat) (hs : s ≤ v)
    (he : v < e) (hk1 : k < g.offsets.getD (v + 1) 0) (hk2 : g.offsets.getD v 0 ≤ k) :
    (relaxRange g s e (L, 0)).1.getD v 0 ≤ L.getD (g.edges.getD k 0) 0 := by
  have hPslot : ∀ (w : Nat) (c : List Nat × Nat) (y : Nat),
      (∀ i, c.1.getD i 0 ≤ L.getD i 0) → ∀ i, (relaxSlot g.edges w c y).1.getD i 0 ≤ L.getD i 0 :=
    fun w c y hc i => Nat.le_trans (relaxSlot_le g.edges w y c i) (hc i)
  have hQslot : ∀ (w : Nat) (c : List Nat × Nat) (y : Nat),
      c.1.getD v 0 ≤ L.getD (g.edges.getD k 0) 0 →
      (relaxSlot g.edges w c y).1.getD v 0 ≤ L.getD (g.edges.getD k 0) 0 :=
    fun w c y hc => Nat.le_trans (relaxSlot_le g.edges w y c v) hc
  have hPv : ∀ (c : List Nat × Nat) (w : Nat),
      (∀ i, c.1.getD i 0 ≤ L.getD i 0) → ∀ i, (relaxVertex g c w).1.getD i 0 ≤ L.getD i 0 :=
    fun c w hc => relaxVertex_inv g w (fun st => ∀ i, st.1.getD i 0 ≤ L.getD i 0) c hc
      (fun d y _ _ hd => hPslot w d y hd)
  have hQv : ∀ (c : List Nat × Nat) (w : Nat),
      c.1.getD v 0 ≤ L.getD (g.edges.getD k 0) 0 →
      (relaxVertex g c w).1.getD v 0 ≤ L.getD (g.edges.getD k 0) 0 :=
    fun c w hc => relaxVertex_inv g w
      (fun st => st.1.getD v 0 ≤ L.getD (g.edges.getD k 0) 0) c hc
      (fun d y _ _ hd => hQslot w d y hd)
  unfold relaxRange
  apply foldl_reach (fun st : List Nat × Nat => ∀ i, st.1.getD i 0 ≤ L.getD i 0)
    (fun st : List Nat × Nat => st.1.getD v 0 ≤ L.getD (g.edges.getD k 0) 0)
    (relaxVertex g) _ v
  · rw [List.mem_range'_1]
    omega
  · exact hPv
  · exact hQv
  · intro c hc
    unfold relaxVertex
    apply foldl_reach (fun st : List Nat × Nat => ∀ i, st.1.getD i 0 ≤ L.getD i 0)
      (fun st : List Nat × Nat => st.1.getD v 0 ≤ L.getD (g.edges.getD k 0) 0)
      (relaxSlot g.edges v) _ k
    · rw [List.mem_range'_1]
      omega
    · exact fun d y hd => hPslot v d y hd
    · exact fun d y hd => hQslot v d y hd
    · intro d hd
      exact Nat.le_trans (relaxSlot_target g.edges v k d) (hd _)
    · exact hc
  · intro i
    exact Nat.le_refl _

theorem stepGraph_le_neighbor (g : Graph) (size : Nat) (hs : 1 ≤ size)
    (hl : g.labels.length = g.vertices) (v k : Nat) (hv : v < g.vertices)
    (hk1 : k < g.offsets.getD (v + 1) 0) (hk2 : g.offsets.getD v 0 ≤ k) :
    (stepGraph g size).labels.getD v 0 ≤ g.labels.getD (g.edges.getD k 0) 0 := by
  obtain ⟨i, hi, a, b⟩ := owner_exists g.vertices size v hs hv
  have h := (gathered_spec g size hl).2 i hi v a b
  show (gathered g size).getD v 0 ≤ _
  rw [h]
  exact relaxRange_le_neighbor g _ _ v k g.labels a b hk1 hk2

theorem withinDist_succ (g : Graph) (d v u : Nat) :
    withinDist g (d + 1) v u = true ↔
      withinDist g d v u = true ∨
        ∃ w, w < g.vertices ∧ adj g v w ∧ withinDist g d w u = true := by
  show (withinDist g d v u ||
      (List.range g.vertices).any (fun w => decide (adj g v w) && withinDist g d w u)) = true ↔ _
  simp only [Bool.or_eq_true, List.any_eq_true, List.mem_range, Bool.and_eq_true,
    decide_eq_true_eq]

theorem withinDist_connected (g : Graph) (d v u : Nat) (h : withinDist g d v u = true) :
    Connected g v u := by
  induction d generalizing v with
  | zero =>
    have : v = u := by simpa [withinDist] using h
    subst this
    exact Relation.ReflTransGen.refl
  | succ d ih =>
    rcases (withinDist_succ g d v u).1 h with h1 | ⟨w, _, h2, h3⟩
    · exact ih v h1
    · exact Relation.ReflTransGen.head (Or.inl h2) (ih w h3)

theorem withinDist_mono (g : Graph) (d e v u : Nat) (hde : d ≤ e)
    (h : withinDist g d v u = true) : withinDist g e v u = true := by
  induction e with
  | zero =>
    have : d = 0 := by omega
    subst this
    exact h
  | succ e ih =>
    rcases Nat.eq_or_lt_of_le hde with h1 | h1
    · subst h1
      exact h
    · exact (withinDist_succ g e v u).2 (Or.inl (ih (by omega)))

theorem iterStep_RunInv (g : Graph) (hv : Valid g) (hid : g.labels = List.range g.vertices)
    (size : Nat) (hs : 1 ≤ size) (k : Nat) : RunInv g (iterStep size k g) :=
  iterStep_inv (RunInv g) size (RunInv_step g hv size hs) k g (RunInv_init g hid)

theorem hop_per_round (g : Graph) (hv : Valid g) (hid : g.labels = List.range g.vertices)
    (size : Nat) (hs : 1 ≤ size) (k : Nat) : ∀ v m, v < g.vertices →
    (∀ j, Connected g v j → m ≤ j) → withinDist g k v m = true →
    (iterStep size k g).labels.getD v 0 = m := by
  induction k with
  | zero =>
    intro v m hvn _ hd
    have : v = m := by simpa [withinDist] using hd
    subst this
    show g.labels.getD v 0 = v
    rw [hid, getD_range _ _ hvn]
  | succ k ih =>
    intro v m hvn hmin hd
    rw [iterStep_succ]
    obtain ⟨L, hL, hlen, _⟩ := iterStep_RunInv g hv hid size hs k
    obtain ⟨L2, hL2, _, hg2⟩ := iterStep_RunInv g hv hid size hs (k + 1)
    rw [iterStep_succ] at hL2
    have hlow : m ≤ (stepGraph (iterStep size k g) size).labels.getD v 0 := by
      rw [hL2]
      exact hmin _ (hg2 v hvn).2
    have hlen2 : (iterStep size k g).labels.length = (iterStep size k g).vertices :=
      iterStep_length size k g (by rw [hid]; simp)
    have hup : (stepGraph (iterStep size k g) size).labels.getD v 0 ≤ m := by
      rcases (withinDist_succ g k v m).1 hd with h1 | ⟨w, hw, h2, h3⟩
      · have := ih v m hvn hmin h1
        have h4 := stepGraph_le (iterStep size k g) size hs hlen2 v
        omega
      · have hw2 : (iterStep size k g).labels.getD w 0 = m :=
          ih w m hw (fun j hj => hmin j (Relation.ReflTransGen.head (Or.inl h2) hj)) h3
        obtain ⟨_, e, he1, he2, he3⟩ := h2
        have h4 := stepGraph_le_neighbor (iterStep size k g) size hs hlen2 v e
          (by rw [hL]; exact hvn) (by rw [hL]; exact he1) (by rw [hL]; exact he2)
        rw [hL] at h4 hw2
        rw [hL]
        have h5 : ({ g with labels := L } : Graph).edges.getD e 0 = w := he3
        rw [h5] at h4
        omega
    omega

theorem stable_after_distance (g : Graph) (hv : Valid g)
    (hid : g.labels = List.range g.vertices) (size : Nat) (hs : 1 ≤ size) (D : Nat)
    (hD : ∀ v, v < g.vertices →
      ∃ m, IsLeast {j | Connected g v j} m ∧ withinDist g D v m = true)
    (k : Nat) (hk : D ≤ k) : stepFlag (iterStep size k g) size = 0 := by
  by_contra hne
  have hlen : (iterStep size k g).labels.length = (iterStep size k g).vertices :=
    iterStep_length size k g (by rw [hid]; simp)
  obtain ⟨j, hj⟩ := stepFlag_nonzero _ size hlen hne
  obtain ⟨L, hL, hLlen, _⟩ := iterStep_RunInv g hv hid size hs k
  obtain ⟨L2, hL2, _, hg2⟩ := iterStep_RunInv g hv hid size hs (k + 1)
  rw [iterStep_succ] at hL2
  by_cases hjn : j < g.vertices
  · obtain ⟨m, hm, hd⟩ := hD j hjn
    have h1 := hop_per_round g hv hid size hs k j m hjn (fun i hi => hm.2 hi)
      (withinDist_mono g D k j m hk hd)
    have h2 : m ≤ (stepGraph (iterStep size k g) size).labels.getD j 0 := by
      rw [hL2]
      exact hm.2 (hg2 j hjn).2
    omega
  · rw [hL] at hj
    have : L.getD j 0 = 0 := getD_of_le L j (by omega)
    have h3 : ({ g with labels := L } : Graph).labels.getD j 0 = 0 := this
    omega

theorem isLeast_of_certificate (g : Graph) (hv : Valid g) (c : Nat → Nat) (D : Nat)
    (h1 : ∀ v, v < g.vertices → c v ≤ v)
    (h2 : ∀ v, v < g.vertices → ∀ w, w < g.vertices → adj g v w → c v = c w)
    (h3 : ∀ v, v < g.vertices → withinDist g D v (c v) = true) (v : Nat)
    (hvn : v < g.vertices) :
    ∃ m, IsLeast {j | Connected g v j} m ∧ withinDist g D v m = true := by
  refine ⟨c v, ⟨withinDist_connected g D v (c v) (h3 v hvn), ?_⟩, h3 v hvn⟩
  intro j hj
  have key : j < g.vertices ∧ c v = c j := by
    have hj2 : Connected g v j := hj
    induction hj2 with
    | refl => exact ⟨hvn, rfl⟩
    | tail hab hstep ih =>
      obtain ⟨a1, a2⟩ := ih hab
      rcases hstep with h | h
      · have hw := adj_lt g hv _ _ h
        exact ⟨hw, a2.trans (h2 _ a1 _ hw h)⟩
      · exact ⟨h.1, a2.trans (h2 _ h.1 _ a1 h).symm⟩
  have := h1 j key.1
  omega

theorem rounds_bounded_by_distance (g : Graph) (hv : Valid g)
    (hid : g.labels = List.range g.vertices) (size : Nat) (hs : 1 ≤ size) (D : Nat)
    (hD : ∀ v, v < g.vertices →
      ∃ m, IsLeast {j | Connected g v j} m ∧ withinDist g D v m = true) :
    (∀ k, D ≤ k → (hybridRound (rounds k (List.replicate size g))).2 = 0) ∧
    ∀ fuel out r, ColoringAlgorithmHybrid fuel (List.replicate size g) = some (out, r) →
      r ≤ D + 1 := by
  have hl : g.labels.length = g.vertices := by rw [hid]; simp
  have hstable : ∀ k, D ≤ k → (hybridRound (rounds k (List.replicate size g))).2 = 0 := by
    intro k hk
    rw [roundFlag_replicate g size hs hl k]
    exact stable_after_distance g hv hid size hs D hD k hk
  refine ⟨hstable, ?_⟩
  intro fuel out r hrun
  obtain ⟨_, _, _, _, e⟩ := (loop_char fuel _ out r).1 hrun
  by_contra hlt
  exact e D (by omega) (hstable D (Nat.le_refl _))

/-! ## The path graph and the sequential algorithm -/

theorem pathGraph_dist (v : Nat) (hv : v < 10) : withinDist pathGraph 9 v 0 = true := by
  have hadj : ∀ w, w < 9 → adj pathGraph (w + 1) w := by decide
  have h : ∀ w, w < 10 → withinDist pathGraph w w 0 = true := by
    intro w
    induction w with
    | zero =>
      intro _
      rfl
    | succ w ih =>
      intro hw
      exact (withinDist_succ pathGraph w (w + 1) 0).2
        (Or.inr ⟨w, by show w < 10; omega, hadj w (by omega), ih (by omega)⟩)
  exact withinDist_mono pathGraph v 9 v 0 (by omega) (h v hv)

theorem pathGraph_least (v : Nat) (hv : v < pathGraph.vertices) :
    ∃ m, IsLeast {j | Connected pathGraph v j} m ∧ withinDist pathGraph 9 v m = true :=
  isLeast_of_certificate pathGraph (by decide) (fun _ => 0) 9 (fun _ _ => Nat.zero_le _)
    (fun _ _ _ _ _ => rfl) (fun w hw => pathGraph_dist w hw) v hv

theorem gathered_single (g : Graph) (hl : g.labels.length = g.vertices) :
    gathered g 1 = (localRelax g 0 1).1.labels := by
  obtain ⟨h1, h2⟩ := gathered_spec g 1 hl
  apply ext_getD _ _ (by rw [h1, localRelax_labels_length, hl])
  intro j hj
  have hs : start_v g.vertices 1 0 = 0 := start_v_zero g.vertices 1
  have he : end_v g.vertices 1 0 = g.vertices := end_v_last g.vertices 1
  exact h2 0 (by omega) j (by omega) (by omega)

theorem stepFlag_single (g : Graph) : stepFlag g 1 = (localRelax g 0 1).2 := by
  show allreduceMax [(localRelax g 0 1).2] = _
  simp [allreduceMax]

theorem localRelax_single (g : Graph) (L : List Nat) :
    localRelax { g with labels := L } 0 1 =
      ({ g with labels := (relaxRange g 0 g.vertices (L, 0)).1 },
        (relaxRange g 0 g.vertices (L, 0)).2) := by
  unfold localRelax
  have hs : start_v g.vertices 1 0 = 0 := start_v_zero g.vertices 1
  have he : end_v g.vertices 1 0 = g.vertices := end_v_last g.vertices 1
  show ({ g with labels := (relaxRange { g with labels := L } (start_v g.vertices 1 0)
      (end_v g.vertices 1 0) (L, 0)).1 },
    (relaxRange { g with labels := L } (start_v g.vertices 1 0)
      (end_v g.vertices 1 0) (L, 0)).2) = _
  rw [hs, he]
  rfl

theorem seqLoop_eq_hybrid (g : Graph) (fuel : Nat) : ∀ L, L.length = g.vertices →
    seqLoop g fuel L =
      (ColoringAlgorithmHybrid fuel (List.replicate 1 { g with labels := L })).map
        (fun out => ((memOf out.1 0).labels, out.2)) := by
  induction fuel with
  | zero =>
    intro L _
    rfl
  | succ fuel ih =>
    intro L hL
    rw [loop_step fuel { g with labels := L } 1 (Nat.le_refl _) hL, stepFlag_single,
      localRelax_single]
    show (if (relaxRange g 0 g.vertices (L, 0)).2 = 0
      then some ((relaxRange g 0 g.vertices (L, 0)).1, 1)
      else (seqLoop g fuel (relaxRange g 0 g.vertices (L, 0)).1).map
        (fun out => (out.1, out.2 + 1))) = _
    have hstep : stepGraph { g with labels := L } 1 =
        { g with labels := (relaxRange g 0 g.vertices (L, 0)).1 } := by
      show ({ g with labels := gathered { g with labels := L } 1 } : Graph) = _
      rw [gathered_single { g with labels := L } hL, localRelax_single]
    rw [hstep]
    have hlen : (relaxRange g 0 g.vertices (L, 0)).1.length = g.vertices := by
      rw [(relaxRange_RelaxInv g 0 g.vertices L).1, hL]
    by_cases hf : (relaxRange g 0 g.vertices (L, 0)).2 = 0
    · rw [if_pos hf, if_pos hf]
      rfl
    · rw [if_neg hf, if_neg hf, ih _ hlen]
      simp only [Option.map_map]
      rfl

theorem pathGraph_single_run :
    ColoringAlgorithmHybrid 2 (List.replicate 1 pathGraph) =
      some (List.replicate 1 { pathGraph with labels := List.replicate 10 0 }, 2) := by
  decide

/-! ## Ingestion failure and the construction of the CSR arrays -/

theorem BroadcastGraph_error_iff (g0 : Option Graph) (rank : Nat) (junk : Nat → Nat) :
    (sentVertexCount g0 ≤ 0 → BroadcastGraph g0 rank junk = Except.error 1) ∧
    (0 < sentVertexCount g0 → ∃ g, BroadcastGraph g0 rank junk = Except.ok g) := by
  cases g0 with
  | none =>
    refine ⟨fun _ => rfl, ?_⟩
    intro h
    exact absurd h (by decide)
  | some g =>
    constructor
    · intro h
      have h2 : (g.vertices : Int) ≤ 0 := h
      unfold BroadcastGraph
      simp only [h2, if_true]
    · intro h
      have h2 : ¬ ((g.vertices : Int) ≤ 0) := by
        have : 0 < (g.vertices : Int) := h
        omega
      unfold BroadcastGraph
      simp only [h2, if_false]
      exact ⟨_, rfl⟩

theorem sum_set_succ (l : List Nat) (u : Nat) (hu : u < l.length) :
    (l.set u (l.getD u 0 + 1)).sum = l.sum + 1 := by
  induction l generalizing u with
  | nil => simp at hu
  | cons x t ih =>
    cases u with
    | zero =>
      simp only [List.set_cons_zero, List.sum_cons, List.getD_cons_zero]
      omega
    | succ u =>
      have := ih u (by simpa using hu)
      simp only [List.set_cons_succ, List.sum_cons, List.getD_cons_succ]
      omega

theorem acceptedEntry_iff (n : Int) (e : Int × Int) :
    acceptedEntry n e = true ↔
      (e.1 - 1 ≥ 0 ∧ e.2 - 1 ≥ 0 ∧ e.1 - 1 < n ∧ e.2 - 1 < n ∧ e.1 - 1 ≠ e.2 - 1) := by
  unfold acceptedEntry
  exact decide_eq_true_iff

theorem bump_two_getD (temp : List Nat) (U V i : Nat) (hU : U < temp.length)
    (hV : V < temp.length) (hUV : U ≠ V) :
    ((temp.set U (temp.getD U 0 + 1)).set V
      ((temp.set U (temp.getD U 0 + 1)).getD V 0 + 1)).getD i 0 =
      temp.getD i 0 + (if U = i ∨ V = i then 1 else 0) := by
  rw [getD_set, getD_set, getD_set]
  simp only [List.length_set]
  by_cases h1 : U = i
  · subst h1
    have h2 : ¬ V = U := fun h => hUV h.symm
    rw [if_neg (fun h => h2 h.1), if_pos ⟨rfl, hU⟩, if_pos (Or.inl rfl)]
  · by_cases h2 : V = i
    · subst h2
      rw [if_pos ⟨rfl, hV⟩, if_neg (fun h => hUV h.1), if_pos (Or.inr rfl)]
    · rw [if_neg (fun h => h2 h.1), if_neg (fun h => h1 h.1),
        if_neg (fun h => h.elim h1 h2)]
      rfl

theorem countStep_spec (n : Int) (temp : List Nat) (e : Int × Int)
    (hlen : (temp.length : Int) = n) :
    (countStep n temp e).length = temp.length ∧
    (countStep n temp e).sum = temp.sum + (if acceptedEntry n e then 2 else 0) ∧
    ∀ i, (countStep n temp e).getD i 0 = temp.getD i 0 +
      (if acceptedEntry n e = true ∧ (e.1 - 1 = (i : Int) ∨ e.2 - 1 = (i : Int)) then 1 else 0) := by
  by_cases hacc : acceptedEntry n e = true
  · obtain ⟨a1, a2, a3, a4, a5⟩ := (acceptedEntry_iff n e).1 hacc
    have hu : (e.1 - 1).toNat < temp.length := by omega
    have hv : (e.2 - 1).toNat < temp.length := by omega
    have huv : (e.1 - 1).toNat ≠ (e.2 - 1).toNat := by omega
    have hdef : countStep n temp e =
        (temp.set (e.1 - 1).toNat (temp.getD (e.1 - 1).toNat 0 + 1)).set (e.2 - 1).toNat
          ((temp.set (e.1 - 1).toNat (temp.getD (e.1 - 1).toNat 0 + 1)).getD (e.2 - 1).toNat 0
            + 1) := by
      unfold countStep
      rw [if_pos hacc]
    rw [hdef]
    refine ⟨by simp, ?_, ?_⟩
    · rw [sum_set_succ _ _ (by simpa using hv), sum_set_succ _ _ hu, if_pos hacc]
    · intro i
      rw [bump_two_getD temp _ _ i hu hv huv]
      by_cases hend : (e.1 - 1).toNat = i ∨ (e.2 - 1).toNat = i
      · have hend2 : e.1 - 1 = (i : Int) ∨ e.2 - 1 = (i : Int) := by omega
        rw [if_pos hend, if_pos ⟨hacc, hend2⟩]
      · have hend2 : ¬ (e.1 - 1 = (i : Int) ∨ e.2 - 1 = (i : Int)) := by omega
        rw [if_neg hend, if_neg (fun h => hend2 h.2)]
  · have hdef : countStep n temp e = temp := by
      unfold countStep
      rw [if_neg hacc]
    rw [hdef]
    refine ⟨rfl, by rw [if_neg hacc]; rfl, ?_⟩
    intro i
    rw [if_neg (fun h => hacc h.1)]
    rfl

theorem countPass_spec (n : Int) (es : List (Int × Int)) : ∀ temp : List Nat,
    (temp.length : Int) = n →
    (es.foldl (countStep n) temp).length = temp.length ∧
    (es.foldl (countStep n) temp).sum = temp.sum + 2 * (es.filter (acceptedEntry n)).length ∧
    ∀ i, (es.foldl (countStep n) temp).getD i 0 = temp.getD i 0 + degreeIn n es i := by
  induction es with
  | nil =>
    intro temp _
    simp [degreeIn]
  | cons e t ih =>
    intro temp hlen
    obtain ⟨s1, s2, s3⟩ := countStep_spec n temp e hlen
    obtain ⟨r1, r2, r3⟩ := ih (countStep n temp e) (by rw [s1]; exact hlen)
    simp only [List.foldl_cons]
    refine ⟨by rw [r1, s1], ?_, ?_⟩
    · rw [r2, s2]
      by_cases hacc : acceptedEntry n e = true
      · simp [hacc, List.filter_cons]
        omega
      · simp [hacc, List.filter_cons]
    · intro i
      rw [r3 i, s3 i]
      unfold degreeIn
      by_cases hacc : acceptedEntry n e = true
      · by_cases hend : e.1 - 1 = (i : Int) ∨ e.2 - 1 = (i : Int)
        · simp [hacc, hend, List.filter_cons, List.countP_cons]
          omega
        · simp [hacc, hend, List.filter_cons, List.countP_cons]
      · simp [hacc, List.filter_cons]

theorem fillOffsets_upto (n : Nat) (temp : List Nat) (m : Nat) (hm : m ≤ n) :
    ((List.range m).foldl
      (fun offsets i => offsets.set (i + 1) (offsets.getD i 0 + temp.getD i 0))
      (List.replicate (n + 1) 0)).length = n + 1 ∧
    ((List.range m).foldl
      (fun offsets i => offsets.set (i + 1) (offsets.getD i 0 + temp.getD i 0))
      (List.replicate (n + 1) 0)).getD 0 0 = 0 ∧
    ∀ i, i < m →
      ((List.range m).foldl
        (fun offsets i => offsets.set (i + 1) (offsets.getD i 0 + temp.getD i 0))
        (List.replicate (n + 1) 0)).getD (i + 1) 0 =
      ((List.range m).foldl
        (fun offsets i => offsets.set (i + 1) (offsets.getD i 0 + temp.getD i 0))
        (List.replicate (n + 1) 0)).getD i 0 + temp.getD i 0 := by
  induction m with
  | zero =>
    refine ⟨by simp, ?_, ?_⟩
    · exact getD_replicate_zero (n + 1) 0
    · intro i hi
      omega
  | succ m ih =>
    obtain ⟨a, b, c⟩ := ih (by omega)
    rw [List.range_succ, List.foldl_append]
    simp only [List.foldl_cons, List.foldl_nil]
    refine ⟨by rw [List.length_set]; exact a, ?_, ?_⟩
    · rw [getD_set, if_neg (by omega)]
      exact b
    · intro i hi
      rw [getD_set, getD_set]
      rcases Nat.eq_or_lt_of_le (Nat.le_of_lt_succ hi) with h | h
      · subst h
        rw [if_pos ⟨rfl, by omega⟩, if_neg (by omega)]
      · rw [if_neg (by omega), if_neg (by omega)]
        exact c i h

theorem fillOffsets_spec (n : Nat) (temp : List Nat) :
    (fillOffsets n temp).length = n + 1 ∧ (fillOffsets n temp).getD 0 0 = 0 ∧
    ∀ i, i < n → (fillOffsets n temp).getD (i + 1) 0 = (fillOffsets n temp).getD i 0 + temp.getD i 0 :=
  fillOffsets_upto n temp n (Nat.le_refl _)

theorem getD_eq_getElem_nat (l : List Nat) (i : Nat) (h : i < l.length) :
    l.getD i 0 = l[i] := by
  simp [List.getD_eq_getElem?_getD, List.getElem?_eq_getElem h]

theorem fillOffsets_sum (n : Nat) (temp : List Nat) (hlen : temp.length = n) (j : Nat)
    (hj : j ≤ n) : (fillOffsets n temp).getD j 0 = (temp.take j).sum := by
  obtain ⟨_, b, c⟩ := fillOffsets_spec n temp
  induction j with
  | zero => simpa using b
  | succ j ih =>
    rw [c j (by omega), ih (by omega), List.sum_take_succ temp j (by omega),
      getD_eq_getElem_nat temp j (by omega)]

theorem fillStep_length (n : Int) (offsets : List Nat) (st : List Nat × List Nat)
    (e : Int × Int) : (fillStep n offsets st e).1.length = st.1.length := by
  unfold fillStep
  by_cases hacc : acceptedEntry n e = true
  · simp [hacc]
  · simp [hacc]

theorem fillPass_length (n : Int) (offsets : List Nat) (es : List (Int × Int)) :
    ∀ st : List Nat × List Nat, (es.foldl (fillStep n offsets) st).1.length = st.1.length := by
  induction es with
  | nil =>
    intro st
    rfl
  | cons e t ih =>
    intro st
    simp only [List.foldl_cons]
    rw [ih, fillStep_length]

theorem readMTX_some (rows cols nnz : Int) (entries : List (Int × Int)) (junk : Nat → Nat)
    (h : 0 ≤ max rows cols) :
    readMTX rows cols nnz entries junk =
      some
        { vertices := (max rows cols).toNat
          num_edges := (fillOffsets (max rows cols).toNat
            ((entries.take nnz.toNat).foldl (countStep (max rows cols))
              (List.replicate (max rows cols).toNat 0))).getD (max rows cols).toNat 0
          edges := (((entries.drop 1).take nnz.toNat).foldl
            (fillStep (max rows cols) (fillOffsets (max rows cols).toNat
              ((entries.take nnz.toNat).foldl (countStep (max rows cols))
                (List.replicate (max rows cols).toNat 0))))
            ((List.range ((fillOffsets (max rows cols).toNat
              ((entries.take nnz.toNat).foldl (countStep (max rows cols))
                (List.replicate (max rows cols).toNat 0))).getD (max rows cols).toNat 0)).map junk,
              List.replicate (max rows cols).toNat 0)).1
          offsets := fillOffsets (max rows cols).toNat
            ((entries.take nnz.toNat).foldl (countStep (max rows cols))
              (List.replicate (max rows cols).toNat 0))
          labels := List.range (max rows cols).toNat } := by
  have hn : (if rows > cols then rows else cols) = max rows cols := by
    split <;> omega
  have hneg : ¬ max rows cols < 0 := by omega
  unfold readMTX
  simp only [hn, hneg, if_false]

/-! ## Zero vertices, range sizes, and the entry tests of the sequential reader -/

theorem BroadcastGraph_ok_iff (g0 : Option Graph) (rank : Nat) (junk : Nat → Nat) :
    (∃ out, BroadcastGraph g0 rank junk = Except.ok out) ↔
      ∃ g, g0 = some g ∧ 1 ≤ g.vertices := by
  obtain ⟨h1, h2⟩ := BroadcastGraph_error_iff g0 rank junk
  constructor
  · rintro ⟨out, hout⟩
    cases g0 with
    | none =>
      have := h1 (by decide)
      rw [this] at hout
      exact absurd hout (by simp)
    | some g =>
      refine ⟨g, rfl, ?_⟩
      by_contra hlt
      have hz : sentVertexCount (some g) ≤ 0 := by
        show (g.vertices : Int) ≤ 0
        omega
      have := h1 hz
      rw [this] at hout
      exact absurd hout (by simp)
  · rintro ⟨g, rfl, hg⟩
    apply h2
    show 0 < (g.vertices : Int)
    omega

theorem range_size_inner (n size p : Nat) (hp : p + 1 < size) :
    end_v n size p - start_v n size p = n / size := by
  have hne : p ≠ size - 1 := by omega
  simp only [start_v, end_v, hne, if_false]
  rw [Nat.succ_mul]
  exact Nat.add_sub_cancel_left _ _

theorem range_size_last (n size : Nat) (hs : 1 ≤ size) :
    end_v n size (size - 1) - start_v n size (size - 1) = n / size + n % size := by
  simp only [start_v, end_v, if_true]
  have h1 : size * (n / size) + n % size = n := Nat.div_add_mod n size
  have h2 : (size - 1) * (n / size) + n / size = size * (n / size) := by
    rw [← Nat.succ_mul]
    congr 1
    omega
  generalize n / size = c at h1 h2 ⊢
  generalize (size - 1) * c = a at h2 ⊢
  generalize size * c = b at h1 h2
  omega

theorem Seq.scanEntries_upper (n nnz : Int) (entries : List (Int × Int)) :
    ∀ count p, p ∈ Seq.scanEntries n nnz entries count → p.1 < n ∧ p.2 < n ∧ p.1 ≠ p.2 := by
  induction entries with
  | nil =>
    intro count p hp
    simp [Seq.scanEntries] at hp
  | cons e rest ih =>
    intro count p hp
    unfold Seq.scanEntries at hp
    by_cases hc : count < nnz
    · rw [if_pos hc] at hp
      by_cases hk : Seq.keepsEntry n e = true
      · rw [if_pos hk] at hp
        rcases List.mem_cons.1 hp with h | h
        · subst h
          simp only [Seq.keepsEntry, Bool.and_eq_true, Bool.not_eq_true', decide_eq_false_iff_not]
            at hk
          obtain ⟨a, b⟩ := hk
          refine ⟨by omega, by omega, b⟩
        · exact ih _ p h
      · rw [if_neg hk] at hp
        exact ih _ p hp
    · rw [if_neg hc] at hp
      simp at hp

/-! ## Claims -/

/-- C1: on a well-formed, symmetrically stored CSR graph with identity labels
and any number `size ≥ 1` of processes, the round loop of
`ColoringAlgorithmHybrid` stops, and when it has stopped every process holds, for
every vertex `i`, the smallest vertex id of the connected component of `i` in
`labels[i]`. -/
theorem coloring_labels_component_minimum (g : Graph) (size : Nat) (hv : Valid g)
    (hsym : SymmetricStorage g) (hid : g.labels = List.range g.vertices) (hs : 1 ≤ size) :
    (∃ fuel out, ColoringAlgorithmHybrid fuel (List.replicate size g) = some out) ∧
    ∀ fuel out r, ColoringAlgorithmHybrid fuel (List.replicate size g) = some (out, r) →
      ∀ p, p < size → ∀ i, i < g.vertices →
        IsLeast {j | Connected g i j} ((out.getD p (createGraph 0)).labels.getD i 0) := by
  obtain ⟨hterm, hres⟩ := run_from_identity g size hv hid hs
  refine ⟨hterm, ?_⟩
  intro fuel out r hrun p hp i hi
  obtain ⟨L, rfl, _, h2, h3⟩ := hres fuel out r hrun
  rw [getD_replicate_graph size p _ _ hp]
  exact fixpoint_isLeast { g with labels := L } hv hsym h3 h2 i hi

/-- Witness for C1 on the six-vertex scenario graph run by two processes; the
run itself yields the labels `[0, 0, 0, 3, 3, 5]` on both. -/
theorem coloring_labels_component_minimum_witness :
    Valid sixGraph ∧ SymmetricStorage sixGraph ∧ sixGraph.labels = List.range sixGraph.vertices ∧
    1 ≤ 2 ∧
    ColoringAlgorithmHybrid 2 (List.replicate 2 sixGraph) =
      some (List.replicate 2 { sixGraph with labels := [0, 0, 0, 3, 3, 5] }, 2) ∧
    ((∃ fuel out, ColoringAlgorithmHybrid fuel (List.replicate 2 sixGraph) = some out) ∧
    ∀ fuel out r, ColoringAlgorithmHybrid fuel (List.replicate 2 sixGraph) = some (out, r) →
      ∀ p, p < 2 → ∀ i, i < sixGraph.vertices →
        IsLeast {j | Connected sixGraph i j} ((out.getD p (createGraph 0)).labels.getD i 0)) :=
  ⟨by decide, by decide, by decide, by decide, by decide,
    coloring_labels_component_minimum sixGraph 2 (by decide) (by decide) (by decide) (by decide)⟩

/-- C2: on a well-formed, symmetrically stored CSR graph with identity labels
and `size ≥ 1` processes, `ColoringAlgorithmHybrid` stops, and afterwards the
count made by the coordinator (rank 0), the number of indices `i` with
`labels[i] == i`, is the number of connected components of the graph. -/
theorem coordinator_count_is_component_count (g : Graph) (size : Nat) (hv : Valid g)
    (hsym : SymmetricStorage g) (hid : g.labels = List.range g.vertices) (hs : 1 ≤ size) :
    (∃ fuel out, ColoringAlgorithmHybrid fuel (List.replicate size g) = some out) ∧
    ∀ fuel out r, ColoringAlgorithmHybrid fuel (List.replicate size g) = some (out, r) →
      countComponents (out.getD 0 (createGraph 0)) = Nat.card (Quotient (compSetoid g)) := by
  obtain ⟨hterm, hres⟩ := run_from_identity g size hv hid hs
  refine ⟨hterm, ?_⟩
  intro fuel out r hrun
  obtain ⟨L, rfl, _, h2, h3⟩ := hres fuel out r hrun
  rw [getD_replicate_graph size 0 _ _ (by omega), countComponents_eq_card]
  exact roots_card { g with labels := L } hsym h3 h2

/-- Witness for C2 on the six-vertex scenario graph run by four processes; the
coordinator counts 3 components. -/
theorem coordinator_count_is_component_count_witness :
    Valid sixGraph ∧ SymmetricStorage sixGraph ∧ sixGraph.labels = List.range sixGraph.vertices ∧
    1 ≤ 4 ∧
    (ColoringAlgorithmHybrid 3 (List.replicate 4 sixGraph)).map
      (fun out => countComponents (out.1.getD 0 (createGraph 0))) = some 3 ∧
    ((∃ fuel out, ColoringAlgorithmHybrid fuel (List.replicate 4 sixGraph) = some out) ∧
    ∀ fuel out r, ColoringAlgorithmHybrid fuel (List.replicate 4 sixGraph) = some (out, r) →
      countComponents (out.getD 0 (createGraph 0)) = Nat.card (Quotient (compSetoid sixGraph))) :=
  ⟨by decide, by decide, by decide, by decide, by decide,
    coordinator_count_is_component_count sixGraph 4 (by decide) (by decide) (by decide)
      (by decide)⟩

/-- C3 (monotonicity): all processes starting from one label array of length
`n` on a graph whose edge values are below `n`, for every round `k`, process `p`
and vertex `v`: the label of `v` after the local relaxation of round `k + 1` is at
most its value after round `k`, the all-gather of round `k + 1` does not raise it
further, and so `labels[v]` after round `k + 1` is at most `labels[v]` after
round `k`. -/
theorem labels_never_increase (g : Graph) (size : Nat)
    (_hedges : ∀ e, e < g.edges.length → g.edges.getD e 0 < g.vertices)
    (hl : g.labels.length = g.vertices) (hs : 1 ≤ size) (k p v : Nat) (hp : p < size) :
    (localRelax ((rounds k (List.replicate size g)).getD p (createGraph 0)) p size).1.labels.getD v 0
      ≤ ((rounds k (List.replicate size g)).getD p (createGraph 0)).labels.getD v 0 ∧
    ((rounds (k + 1) (List.replicate size g)).getD p (createGraph 0)).labels.getD v 0
      ≤ (localRelax ((rounds k (List.replicate size g)).getD p (createGraph 0)) p size).1.labels.getD v 0 ∧
    ((rounds (k + 1) (List.replicate size g)).getD p (createGraph 0)).labels.getD v 0
      ≤ ((rounds k (List.replicate size g)).getD p (createGraph 0)).labels.getD v 0 := by
  rw [rounds_replicate size hs k g hl, rounds_replicate size hs (k + 1) g hl,
    getD_replicate_graph size p _ _ hp, getD_replicate_graph size p _ _ hp, iterStep_succ]
  have hk := iterStep_length size k g hl
  have a := localRelax_le (iterStep size k g) p size v
  have b := stepGraph_le_local (iterStep size k g) size hs hk p v hp
  exact ⟨a, b, Nat.le_trans b a⟩

/-- Witness for C3: the six-vertex scenario graph on three processes, round 1 to
round 2, process 1, vertex 2. -/
theorem labels_never_increase_witness :
    (∀ e, e < sixGraph.edges.length → sixGraph.edges.getD e 0 < sixGraph.vertices) ∧
    sixGraph.labels.length = sixGraph.vertices ∧ 1 ≤ 3 ∧ 1 < 3 ∧
    (localRelax ((rounds 1 (List.replicate 3 sixGraph)).getD 1 (createGraph 0)) 1 3).1.labels.getD 2 0
      ≤ ((rounds 1 (List.replicate 3 sixGraph)).getD 1 (createGraph 0)).labels.getD 2 0 ∧
    ((rounds (1 + 1) (List.replicate 3 sixGraph)).getD 1 (createGraph 0)).labels.getD 2 0
      ≤ (localRelax ((rounds 1 (List.replicate 3 sixGraph)).getD 1 (createGraph 0)) 1 3).1.labels.getD 2 0 ∧
    ((rounds (1 + 1) (List.replicate 3 sixGraph)).getD 1 (createGraph 0)).labels.getD 2 0
      ≤ ((rounds 1 (List.replicate 3 sixGraph)).getD 1 (createGraph 0)).labels.getD 2 0 :=
  ⟨by decide, by decide, by decide, by decide,
    labels_never_increase sixGraph 3 (by decide) (by decide) (by decide) 1 1 2 (by decide)⟩

/-- C4 (label range): `createGraph` sets `labels[i] = i` for every `i < n`; and
on a well-formed graph whose labels are those set by `createGraph`, every label
of every process is below `n` after every round and after every single
relaxation step inside a round (the state reached when a process has finished
the vertices before `m` and `j` edge slots of vertex `m`). Labels are natural
numbers, so `0 ≤ labels[i]` holds by type. -/
theorem labels_stay_in_range (g : Graph) (size : Nat) (hv : Valid g)
    (hid : g.labels = (createGraph g.vertices).labels) (hs : 1 ≤ size) :
    (∀ n i, i < n → (createGraph n).labels.getD i 0 = i) ∧
    (∀ k p, p < size → ∀ i, i < g.vertices →
      ((rounds k (List.replicate size g)).getD p (createGraph 0)).labels.getD i 0 < g.vertices) ∧
    (∀ k p, p < size → ∀ m j, start_v g.vertices size p ≤ m → m < end_v g.vertices size p →
      j ≤ g.offsets.getD (m + 1) 0 - g.offsets.getD m 0 → ∀ i, i < g.vertices →
      (relaxPartial ((rounds k (List.replicate size g)).getD p (createGraph 0))
        (start_v g.vertices size p) m j
        (((rounds k (List.replicate size g)).getD p (createGraph 0)).labels, 0)).1.getD i 0
        < g.vertices) := by
  have hid2 : g.labels = List.range g.vertices := hid
  have hl : g.labels.length = g.vertices := by rw [hid2]; simp
  have hinv : ∀ k, RunInv g (iterStep size k g) := fun k =>
    iterStep_inv (RunInv g) size (RunInv_step g hv size hs) k g (RunInv_init g hid2)
  refine ⟨?_, ?_, ?_⟩
  · intro n i hi
    simp [createGraph, List.getD_eq_getElem?_getD, List.getElem?_range hi]
  · intro k p hp i hi
    rw [rounds_replicate size hs k g hl, getD_replicate_graph size p _ _ hp]
    obtain ⟨L, hL, _, hg⟩ := hinv k
    rw [hL]
    have := (hg i hi).1
    show L.getD i 0 < g.vertices
    omega
  · intro k p hp m j hm1 hm2 hj i hi
    rw [rounds_replicate size hs k g hl, getD_replicate_graph size p _ _ hp]
    obtain ⟨L, hL, _, hg⟩ := hinv k
    rw [hL]
    have hmn : m < g.vertices := Nat.lt_of_lt_of_le hm2 (end_v_le g.vertices size p hp)
    have := (relaxPartial_Good { g with labels := L } hv (start_v g.vertices size p) m j hmn hj
      (L, 0) hg i hi).1
    exact Nat.lt_of_le_of_lt this hi

/-- Witness for C4: the six-vertex scenario graph on two processes. -/
theorem labels_stay_in_range_witness :
    Valid sixGraph ∧ sixGraph.labels = (createGraph sixGraph.vertices).labels ∧ 1 ≤ 2 ∧
    ((∀ n i, i < n → (createGraph n).labels.getD i 0 = i) ∧
    (∀ k p, p < 2 → ∀ i, i < sixGraph.vertices →
      ((rounds k (List.replicate 2 sixGraph)).getD p (createGraph 0)).labels.getD i 0
        < sixGraph.vertices) ∧
    (∀ k p, p < 2 → ∀ m j, start_v sixGraph.vertices 2 p ≤ m → m < end_v sixGraph.vertices 2 p →
      j ≤ sixGraph.offsets.getD (m + 1) 0 - sixGraph.offsets.getD m 0 → ∀ i, i < sixGraph.vertices →
      (relaxPartial ((rounds k (List.replicate 2 sixGraph)).getD p (createGraph 0))
        (start_v sixGraph.vertices 2 p) m j
        (((rounds k (List.replicate 2 sixGraph)).getD p (createGraph 0)).labels, 0)).1.getD i 0
        < sixGraph.vertices)) :=
  ⟨by decide, by decide, by decide,
    labels_stay_in_range sixGraph 2 (by decide) (by decide) (by decide)⟩

/-- C5 (partitioning): for every `n` and `size ≥ 1` the ranges from `start_v` up
to `end_v` computed by the processes `0 .. size - 1` begin at 0, are contiguous,
end at `n`, are pairwise disjoint and cover `0 .. n - 1` exactly (every vertex
has exactly one owner); and the tables satisfy `displs[p] = start_v`,
`recvcounts[p] = end_v - start_v`, with the `recvcounts` summing to `n`. -/
theorem ranges_partition_vertices (n size : Nat) (hs : 1 ≤ size) :
    start_v n size 0 = 0 ∧
    (∀ p, p + 1 < size → end_v n size p = start_v n size (p + 1)) ∧
    end_v n size (size - 1) = n ∧
    (∀ p, p < size → start_v n size p ≤ end_v n size p) ∧
    (∀ p q, p < q → q < size → end_v n size p ≤ start_v n size q) ∧
    (∀ j, j < n → ∃! p, p < size ∧ start_v n size p ≤ j ∧ j < end_v n size p) ∧
    (∀ p j, p < size → start_v n size p ≤ j → j < end_v n size p → j < n) ∧
    (recvcounts n size).length = size ∧ (displs n size).length = size ∧
    (∀ p, p < size → (displs n size).getD p 0 = start_v n size p ∧
      (recvcounts n size).getD p 0 = end_v n size p - start_v n size p) ∧
    (recvcounts n size).sum = n := by
  refine ⟨start_v_zero n size, fun p hp => end_v_eq_start_v_succ n size p hp, end_v_last n size,
    fun p hp => start_v_le_end_v n size p hp,
    fun p q hpq hq => end_v_le_start_v n size p q hq hpq, ?_, ?_, by simp [recvcounts],
    by simp [displs], fun p hp => ⟨displs_getD n size p hp, recvcounts_getD n size p hp⟩,
    recvcounts_sum n size hs⟩
  · intro j hj
    obtain ⟨i, hi, a, b⟩ := owner_exists n size j hs hj
    refine ⟨i, ⟨hi, a, b⟩, ?_⟩
    rintro q ⟨hq, c, d⟩
    exact owner_unique n size j q i hq hi c d a b
  · intro p j hp _ h2
    exact Nat.lt_of_lt_of_le h2 (end_v_le n size p hp)

/-- Witness for C5: ten vertices on four processes give the ranges
0..2, 2..4, 4..6, 6..10. -/
theorem ranges_partition_vertices_witness :
    1 ≤ 4 ∧ recvcounts 10 4 = [2, 2, 2, 4] ∧ displs 10 4 = [0, 2, 4, 6] ∧
    (start_v 10 4 0 = 0 ∧
    (∀ p, p + 1 < 4 → end_v 10 4 p = start_v 10 4 (p + 1)) ∧
    end_v 10 4 (4 - 1) = 10 ∧
    (∀ p, p < 4 → start_v 10 4 p ≤ end_v 10 4 p) ∧
    (∀ p q, p < q → q < 4 → end_v 10 4 p ≤ start_v 10 4 q) ∧
    (∀ j, j < 10 → ∃! p, p < 4 ∧ start_v 10 4 p ≤ j ∧ j < end_v 10 4 p) ∧
    (∀ p j, p < 4 → start_v 10 4 p ≤ j → j < end_v 10 4 p → j < 10) ∧
    (recvcounts 10 4).length = 4 ∧ (displs 10 4).length = 4 ∧
    (∀ p, p < 4 → (displs 10 4).getD p 0 = start_v 10 4 p ∧
      (recvcounts 10 4).getD p 0 = end_v 10 4 p - start_v 10 4 p) ∧
    (recvcounts 10 4).sum = 10) :=
  ⟨by decide, by decide, by decide, ranges_partition_vertices 10 4 (by decide)⟩

/-- C6 (distribution fidelity): when rank 0 holds a graph with `n ≥ 1` vertices,
`n + 1` offsets and `num_edges` edges, then for every group size `size ≥ 1`, every
rank below `size` and whatever the fresh receive buffers contain, `BroadcastGraph`
returns normally on that rank with `vertices`, `num_edges`, `offsets` and `edges`
equal to those of rank 0; a receiver's `labels` is the identity and rank 0 keeps
its own. -/
theorem broadcast_fidelity (g : Graph) (size : Nat) (junk : Nat → Nat → Nat)
    (hn : 1 ≤ g.vertices) (hoff : g.offsets.length = g.vertices + 1)
    (hed : g.edges.length = g.num_edges) (_hs : 1 ≤ size) (rank : Nat) (hr : rank < size) :
    ∃ out, (BroadcastGroup (some g) size junk).getD rank (Except.error 0) = Except.ok out ∧
      out.vertices = g.vertices ∧ out.num_edges = g.num_edges ∧
      out.offsets = g.offsets ∧ out.edges = g.edges ∧
      out.offsets.length = g.vertices + 1 ∧ out.edges.length = g.num_edges ∧
      (rank ≠ 0 → out.labels = List.range g.vertices) ∧
      (rank = 0 → out.labels = g.labels) := by
  rw [BroadcastGroup_getD (some g) size junk rank hr, BroadcastGraph_ok g rank (junk rank) hn hoff hed]
  refine ⟨_, rfl, ?_⟩
  by_cases h0 : rank = 0
  · rw [if_pos h0]
    exact ⟨rfl, rfl, rfl, rfl, hoff, hed, fun h => absurd h0 h, fun _ => rfl⟩
  · rw [if_neg h0]
    exact ⟨rfl, rfl, rfl, rfl, hoff, hed, fun _ => rfl, fun h => absurd h h0⟩

/-- Witness for C6: the six-vertex scenario graph broadcast to a group of two,
seen on rank 1 whose fresh edge buffer holds sevens. -/
theorem broadcast_fidelity_witness :
    1 ≤ sixGraph.vertices ∧ sixGraph.offsets.length = sixGraph.vertices + 1 ∧
    sixGraph.edges.length = sixGraph.num_edges ∧ 1 ≤ 2 ∧ 1 < 2 ∧
    ∃ out, (BroadcastGroup (some sixGraph) 2 (fun _ _ => 7)).getD 1 (Except.error 0)
        = Except.ok out ∧
      out.vertices = sixGraph.vertices ∧ out.num_edges = sixGraph.num_edges ∧
      out.offsets = sixGraph.offsets ∧ out.edges = sixGraph.edges ∧
      out.offsets.length = sixGraph.vertices + 1 ∧ out.edges.length = sixGraph.num_edges ∧
      (1 ≠ 0 → out.labels = List.range sixGraph.vertices) ∧
      (1 = 0 → out.labels = sixGraph.labels) :=
  ⟨by decide, by decide, by decide, by decide, by decide,
    broadcast_fidelity sixGraph 2 (fun _ _ => 7) (by decide) (by decide) (by decide) (by decide)
      1 (by decide)⟩

/-- C7 (chunked transfer): for every `num_edges` the pairs `(offset, to_send)` of
the edge loop of `BroadcastGraph` start at offset 0; each next offset is the
previous offset plus the previous `to_send`, and every chunk that has a successor
has exactly 500000000 elements; every `to_send` is between 1 and 500000000 (below
`2 ^ 31`) and stays inside the array; the last chunk ends at `num_edges` and the
`to_send` values sum to `num_edges`. Hence the loop, which performs exactly these
transfers, leaves a receive buffer of `num_edges` elements equal to the source. -/
theorem chunked_transfer_tiles (num_edges : Nat) :
    (∀ c, (chunkPlan num_edges 0).head? = some c → c.1 = 0) ∧
    List.Chain' (fun a b : Nat × Nat => b.1 = a.1 + a.2 ∧ a.2 = 500000000)
      (chunkPlan num_edges 0) ∧
    (∀ c, c ∈ chunkPlan num_edges 0 →
      1 ≤ c.2 ∧ c.2 ≤ 500000000 ∧ c.2 < 2 ^ 31 ∧ c.1 + c.2 ≤ num_edges) ∧
    (∀ c, (chunkPlan num_edges 0).getLast? = some c → c.1 + c.2 = num_edges) ∧
    ((chunkPlan num_edges 0).map Prod.snd).sum = num_edges ∧
    (∀ src dst : List Nat, src.length = num_edges → dst.length = num_edges →
      bcastEdges num_edges src 0 dst =
        (chunkPlan num_edges 0).foldl (fun buf c => copySeg src buf c.1 c.2) dst ∧
      bcastEdges num_edges src 0 dst = src) := by
  obtain ⟨a, b, c, e⟩ := chunkPlan_props num_edges (num_edges - 0) 0 rfl
  refine ⟨fun x hx => chunkPlan_head num_edges 0 x hx, c, ?_, e, b, ?_⟩
  · intro x hx
    obtain ⟨_, h2, h3, h4⟩ := a x hx
    have h5 : x.2 ≤ 500000000 := h3
    refine ⟨h2, h5, ?_, h4⟩
    have : (500000000 : Nat) < 2 ^ 31 := by norm_num
    omega
  · intro src dst hsrc hdst
    exact ⟨bcastEdges_eq_plan num_edges src (num_edges - 0) 0 dst rfl,
      bcastEdges_copies num_edges src dst hsrc hdst⟩

/-- Witness for C7: an edge array of 1200000000 elements goes in three chunks,
the last one partial; and a three-element array is reproduced exactly. -/
theorem chunked_transfer_tiles_witness :
    chunkPlan 1200000000 0 =
      [(0, 500000000), (500000000, 500000000), (1000000000, 200000000)] ∧
    [4, 5, 6].length = 3 ∧ [0, 0, 0].length = 3 ∧
    bcastEdges 3 [4, 5, 6] 0 [0, 0, 0] = [4, 5, 6] := by
  refine ⟨?_, rfl, rfl, ((chunked_transfer_tiles 3).2.2.2.2.2 [4, 5, 6] [0, 0, 0] rfl rfl).2⟩
  have e1 : to_send 1200000000 0 = 500000000 := by decide
  have e2 : to_send 1200000000 500000000 = 500000000 := by decide
  have e3 : to_send 1200000000 1000000000 = 200000000 := by decide
  rw [chunkPlan_pos 1200000000 0 (by decide), e1,
    chunkPlan_pos 1200000000 (0 + 500000000) (by decide), e2,
    chunkPlan_pos 1200000000 (0 + 500000000 + 500000000) (by decide), e3,
    chunkPlan_neg 1200000000 (0 + 500000000 + 500000000 + 200000000) (by decide)]

/-- C8 (idempotence): on a well-formed graph whose common label array is
already converged, for every `size ≥ 1`: every process leaves its graph unchanged
and reports `local_changed = 0`, the round leaves the memory of the whole group
unchanged with `global_changed = 0`, and the loop stops after exactly one pass. -/
theorem converged_run_single_round (g : Graph) (size : Nat) (_hv : Valid g)
    (hl : g.labels.length = g.vertices) (hs : 1 ≤ size) (hc : Converged g) :
    (∀ p, p < size → localRelax g p size = (g, 0)) ∧
    hybridRound (List.replicate size g) = (List.replicate size g, 0) ∧
    ∀ fuel, ColoringAlgorithmHybrid (fuel + 1) (List.replicate size g)
      = some (List.replicate size g, 1) :=
  converged_round g size hs hl hc

/-- Witness for C8: the six-vertex scenario graph with its final labels, on
three processes. -/
theorem converged_run_single_round_witness :
    Valid sixGraphDone ∧ sixGraphDone.labels.length = sixGraphDone.vertices ∧ 1 ≤ 3 ∧
    Converged sixGraphDone ∧
    ((∀ p, p < 3 → localRelax sixGraphDone p 3 = (sixGraphDone, 0)) ∧
    hybridRound (List.replicate 3 sixGraphDone) = (List.replicate 3 sixGraphDone, 0) ∧
    ∀ fuel, ColoringAlgorithmHybrid (fuel + 1) (List.replicate 3 sixGraphDone)
      = some (List.replicate 3 sixGraphDone, 1)) :=
  ⟨by decide, by decide, by decide, by decide,
    converged_run_single_round sixGraphDone 3 (by decide) (by decide) (by decide) (by decide)⟩

/-- C9 (disjoint union of cliques): let the vertices of a well-formed graph
with identity labels be split by `c` into `k` non-empty classes such that `u` is
stored in the slice of `v` exactly when `u` and `v` are distinct vertices of the
same class. Then for every `size ≥ 1` the run stops, and afterwards on every
process exactly `k` indices satisfy `labels[i] == i` and two vertices of the same
class have the same label. -/
theorem clique_union_labels (g : Graph) (size k : Nat) (c : Nat → Nat) (hv : Valid g)
    (hid : g.labels = List.range g.vertices) (hs : 1 ≤ size)
    (hck : ∀ v, v < g.vertices → c v < k)
    (hsurj : ∀ q, q < k → ∃ v, v < g.vertices ∧ c v = q)
    (hadj : ∀ v, v < g.vertices → ∀ u, u < g.vertices → (adj g v u ↔ (c v = c u ∧ v ≠ u))) :
    (∃ fuel out, ColoringAlgorithmHybrid fuel (List.replicate size g) = some out) ∧
    ∀ fuel out r, ColoringAlgorithmHybrid fuel (List.replicate size g) = some (out, r) →
      ∀ p, p < size →
        countComponents (out.getD p (createGraph 0)) = k ∧
        ∀ v, v < g.vertices → ∀ u, u < g.vertices → c v = c u →
          (out.getD p (createGraph 0)).labels.getD v 0
            = (out.getD p (createGraph 0)).labels.getD u 0 := by
  obtain ⟨hterm, hres⟩ := run_from_identity g size hv hid hs
  refine ⟨hterm, ?_⟩
  intro fuel out r hrun p hp
  obtain ⟨L, rfl, _, h2, h3⟩ := hres fuel out r hrun
  rw [getD_replicate_graph size p _ _ hp]
  constructor
  · rw [countComponents_eq_card]
    exact clique_roots_card { g with labels := L } hv k c hck hsurj hadj h3 h2
  · intro v hvn u hun hcvu
    by_cases hne : v = u
    · rw [hne]
    · have h1 : adj g v u := (hadj v hvn u hun).2 ⟨hcvu, hne⟩
      exact converged_connected_eq { g with labels := L } (clique_symmetric g hv c hadj) h3 v u
        (Relation.ReflTransGen.single (Or.inl h1))

/-- Witness for C9: the cliques {0, 3, 4} and {1, 2} on two processes; the run
ends with the labels `[0, 1, 1, 0, 0]`. -/
theorem clique_union_labels_witness :
    Valid cliqueGraph ∧ cliqueGraph.labels = List.range cliqueGraph.vertices ∧ 1 ≤ 2 ∧
    (∀ v, v < cliqueGraph.vertices → cliqueOf v < 2) ∧
    (∀ q, q < 2 → ∃ v, v < cliqueGraph.vertices ∧ cliqueOf v = q) ∧
    (∀ v, v < cliqueGraph.vertices → ∀ u, u < cliqueGraph.vertices →
      (adj cliqueGraph v u ↔ (cliqueOf v = cliqueOf u ∧ v ≠ u))) ∧
    (ColoringAlgorithmHybrid 3 (List.replicate 2 cliqueGraph)).map
      (fun out => out.1.map (fun h => h.labels)) = some [[0, 1, 1, 0, 0], [0, 1, 1, 0, 0]] ∧
    ((∃ fuel out, ColoringAlgorithmHybrid fuel (List.replicate 2 cliqueGraph) = some out) ∧
    ∀ fuel out r, ColoringAlgorithmHybrid fuel (List.replicate 2 cliqueGraph) = some (out, r) →
      ∀ p, p < 2 →
        countComponents (out.getD p (createGraph 0)) = 2 ∧
        ∀ v, v < cliqueGraph.vertices → ∀ u, u < cliqueGraph.vertices → cliqueOf v = cliqueOf u →
          (out.getD p (createGraph 0)).labels.getD v 0
            = (out.getD p (createGraph 0)).labels.getD u 0) :=
  ⟨by decide, by decide, by decide, by decide, by decide, by decide, by decide,
    clique_union_labels cliqueGraph 2 2 cliqueOf (by decide) (by decide) (by decide) (by decide)
      (by decide) (by decide)⟩

/-- C10 (no edges): on a graph with `n ≥ 1` vertices, all offsets 0 and identity
labels, for every `size ≥ 1`: no process changes anything, the loop stops after
its first pass for any fuel, the labels stay `[0, 1, ..., n - 1]`, and the
component count is `n`. -/
theorem edgeless_run (g : Graph) (size : Nat) (_hn : 1 ≤ g.vertices) (hs : 1 ≤ size)
    (hoff : g.offsets = List.replicate (g.vertices + 1) 0)
    (hid : g.labels = List.range g.vertices) :
    (∀ p, p < size → localRelax g p size = (g, 0)) ∧
    (∀ fuel, ColoringAlgorithmHybrid (fuel + 1) (List.replicate size g)
      = some (List.replicate size g, 1)) ∧
    g.labels = List.range g.vertices ∧ countComponents g = g.vertices := by
  have hc : Converged g := by
    intro v _ k hk1 _
    rw [hoff, getD_replicate_zero] at hk1
    omega
  obtain ⟨h1, _, h3⟩ := converged_round g size hs (by rw [hid]; simp) hc
  exact ⟨h1, h3, hid, countComponents_identity g hid⟩

/-- Witness for C10: four isolated vertices on three processes give the labels
`[0, 1, 2, 3]` and the count 4. -/
theorem edgeless_run_witness :
    1 ≤ (createGraph 4).vertices ∧ 1 ≤ 3 ∧
    (createGraph 4).offsets = List.replicate ((createGraph 4).vertices + 1) 0 ∧
    (createGraph 4).labels = List.range (createGraph 4).vertices ∧
    (createGraph 4).labels = [0, 1, 2, 3] ∧ countComponents (createGraph 4) = 4 ∧
    ((∀ p, p < 3 → localRelax (createGraph 4) p 3 = (createGraph 4, 0)) ∧
    (∀ fuel, ColoringAlgorithmHybrid (fuel + 1) (List.replicate 3 (createGraph 4))
      = some (List.replicate 3 (createGraph 4), 1)) ∧
    (createGraph 4).labels = List.range (createGraph 4).vertices ∧
    countComponents (createGraph 4) = (createGraph 4).vertices) :=
  ⟨by decide, by decide, by decide, by decide, by decide, by decide,
    edgeless_run (createGraph 4) 3 (by decide) (by decide) (by decide) (by decide)⟩

/-- C11 (convergence check): all processes starting from the graph `g`, in every
round `k + 1` each `local_changed` is 0 or 1; the value `global_changed` produced
by the MAX reduction is 1 exactly when some process reports 1 and 0 exactly when
all report 0 (the logical OR); a process reports 1 exactly when it changed a
label in its own range. When the loop has stopped after `r` passes, no process
changed a label in pass `r`, and every earlier pass had `global_changed = 1`. -/
theorem convergence_check_is_or (g : Graph) (size : Nat) (hs : 1 ≤ size)
    (hl : g.labels.length = g.vertices) :
    (∀ k p, p < size →
      ((localRelax (memOf (rounds k (List.replicate size g)) p) p size).2 = 0 ∨
        (localRelax (memOf (rounds k (List.replicate size g)) p) p size).2 = 1) ∧
      ((localRelax (memOf (rounds k (List.replicate size g)) p) p size).2 = 1 ↔
        ∃ v, start_v g.vertices size p ≤ v ∧ v < end_v g.vertices size p ∧
          (localRelax (memOf (rounds k (List.replicate size g)) p) p size).1.labels.getD v 0
            ≠ (memOf (rounds k (List.replicate size g)) p).labels.getD v 0)) ∧
    (∀ k, ((hybridRound (rounds k (List.replicate size g))).2 = 1 ↔
        ∃ p, p < size ∧
          (localRelax (memOf (rounds k (List.replicate size g)) p) p size).2 = 1) ∧
      ((hybridRound (rounds k (List.replicate size g))).2 = 0 ↔
        ∀ p, p < size →
          (localRelax (memOf (rounds k (List.replicate size g)) p) p size).2 = 0)) ∧
    (∀ fuel out r, ColoringAlgorithmHybrid fuel (List.replicate size g) = some (out, r) →
      1 ≤ r ∧ (hybridRound (rounds (r - 1) (List.replicate size g))).2 = 0 ∧
      ∀ k, k + 1 < r → (hybridRound (rounds k (List.replicate size g))).2 = 1) := by
  have htop : ∀ k, (iterStep size k g).vertices = g.vertices := fun k =>
    iterStep_inv (fun h => h.vertices = g.vertices) size (fun _ hh => hh) k g rfl
  refine ⟨?_, ?_, ?_⟩
  · intro k p hp
    rw [memOf_rounds g size hs hl k p hp]
    constructor
    · have := localRelax_flag_le (iterStep size k g) p size
      omega
    · have := localRelax_flag_iff (iterStep size k g) p size
      rw [htop k] at this
      exact this
  · intro k
    rw [roundFlag_replicate g size hs hl k]
    constructor
    · rw [stepFlag_eq_one_iff]
      constructor
      · rintro ⟨p, hp, h⟩
        exact ⟨p, hp, by rw [memOf_rounds g size hs hl k p hp]; exact h⟩
      · rintro ⟨p, hp, h⟩
        rw [memOf_rounds g size hs hl k p hp] at h
        exact ⟨p, hp, h⟩
    · constructor
      · intro h p hp
        rw [memOf_rounds g size hs hl k p hp]
        have := (stepFlag_zero _ size hs (iterStep_length size k g hl) h).2.2 p hp
        rw [this]
      · intro h
        have hle := stepFlag_le (iterStep size k g) size
        by_contra hne
        have h1 : stepFlag (iterStep size k g) size = 1 := by omega
        obtain ⟨p, hp, h2⟩ := (stepFlag_eq_one_iff _ size).1 h1
        have h3 := h p hp
        rw [memOf_rounds g size hs hl k p hp] at h3
        omega
  · intro fuel out r hrun
    obtain ⟨a, _, _, d, e⟩ := (loop_char fuel _ out r).1 hrun
    refine ⟨a, d, ?_⟩
    intro k hk
    have h1 := e k hk
    rw [roundFlag_replicate g size hs hl k] at h1 ⊢
    have := stepFlag_le (iterStep size k g) size
    omega

/-- Witness for C11: the six-vertex scenario graph on three processes; the run
takes three passes. -/
theorem convergence_check_is_or_witness :
    1 ≤ 3 ∧ sixGraph.labels.length = sixGraph.vertices ∧
    (ColoringAlgorithmHybrid 3 (List.replicate 3 sixGraph)).map (fun out => out.2) = some 3 ∧
    (hybridRound (rounds 0 (List.replicate 3 sixGraph))).2 = 1 ∧
    (hybridRound (rounds 2 (List.replicate 3 sixGraph))).2 = 0 ∧
    (∀ fuel out r, ColoringAlgorithmHybrid fuel (List.replicate 3 sixGraph) = some (out, r) →
      1 ≤ r ∧ (hybridRound (rounds (r - 1) (List.replicate 3 sixGraph))).2 = 0 ∧
      ∀ k, k + 1 < r → (hybridRound (rounds k (List.replicate 3 sixGraph))).2 = 1) :=
  ⟨by decide, by decide, by decide, by decide, by decide,
    (convergence_check_is_or sixGraph 3 (by decide) (by decide)).2.2⟩

/-- C12 (ingestion failure): when rank 0 enters `BroadcastGraph` with `NULL`,
the vertex count it broadcasts is `-1`, and for every group size `size ≥ 1` every
rank below `size` leaves `BroadcastGraph` by `exit(1)`; the only thing a rank has
done before is the first broadcast: no allocation and no further broadcast. -/
theorem ingestion_failure_exits_group (size : Nat) (junk : Nat → Nat → Nat) (_hs : 1 ≤ size)
    (rank : Nat) (hr : rank < size) :
    sentVertexCount none = -1 ∧
    (BroadcastGroup none size junk).getD rank (Except.error 0) = Except.error 1 ∧
    BroadcastGraph none rank (junk rank) = Except.error 1 ∧
    BroadcastTrace none rank = [BcastEvent.bcastVertices (-1), BcastEvent.exitWith 1] := by
  refine ⟨rfl, ?_, rfl, rfl⟩
  rw [BroadcastGroup_getD none size junk rank hr]
  rfl

/-- Witness for C12: rank 2 of a group of three. -/
theorem ingestion_failure_exits_group_witness :
    1 ≤ 3 ∧ 2 < 3 ∧
    (sentVertexCount none = -1 ∧
    (BroadcastGroup none 3 (fun _ _ => 0)).getD 2 (Except.error 0) = Except.error 1 ∧
    BroadcastGraph none 2 (fun _ => 0) = Except.error 1 ∧
    BroadcastTrace none 2 = [BcastEvent.bcastVertices (-1), BcastEvent.exitWith 1]) :=
  ⟨by decide, by decide, ingestion_failure_exits_group 3 (fun _ _ => 0) (by decide) 2 (by decide)⟩

/-- C13 (offsets built by `readMTX`): for every size line `rows cols nnz` and
every list of data entries, `readMTX` builds no graph when `max rows cols` is
negative and otherwise builds a graph with `n = max rows cols` vertices whose
`offsets` array has `n + 1` entries, starts at 0, grows from `offsets[i]` to
`offsets[i+1]` by the number of accepted entries among the first `nnz` that have
`i` as an endpoint (so it is non-decreasing), and whose `num_edges` is
`offsets[n]`, twice the number of accepted entries; `edges` is allocated with
`num_edges` slots and `labels` is the identity. -/
theorem readMTX_offsets_are_degree_sums (rows cols nnz : Int) (entries : List (Int × Int))
    (junk : Nat → Nat) :
    (max rows cols < 0 → readMTX rows cols nnz entries junk = none) ∧
    (0 ≤ max rows cols →
      ∃ g, readMTX rows cols nnz entries junk = some g ∧
        (g.vertices : Int) = max rows cols ∧
        g.offsets.length = g.vertices + 1 ∧
        g.offsets.getD 0 0 = 0 ∧
        (∀ i, i < g.vertices → g.offsets.getD (i + 1) 0 =
          g.offsets.getD i 0 + degreeIn (max rows cols) (entries.take nnz.toNat) i) ∧
        (∀ i, i < g.vertices → g.offsets.getD i 0 ≤ g.offsets.getD (i + 1) 0) ∧
        g.num_edges = g.offsets.getD g.vertices 0 ∧
        g.num_edges =
          2 * ((entries.take nnz.toNat).filter (acceptedEntry (max rows cols))).length ∧
        g.edges.length = g.num_edges ∧
        g.labels = List.range g.vertices) := by
  have hn : (if rows > cols then rows else cols) = max rows cols := by
    split <;> omega
  constructor
  · intro h
    unfold readMTX
    simp only [hn, h, if_true]
  · intro h
    have hcast : ((max rows cols).toNat : Int) = max rows cols := by omega
    obtain ⟨c1, c2, c3⟩ := countPass_spec (max rows cols) (entries.take nnz.toNat)
      (List.replicate (max rows cols).toNat 0) (by simp; omega)
    obtain ⟨o1, o2, o3⟩ := fillOffsets_spec (max rows cols).toNat
      ((entries.take nnz.toNat).foldl (countStep (max rows cols))
        (List.replicate (max rows cols).toNat 0))
    have hstep : ∀ i, i < (max rows cols).toNat →
        (fillOffsets (max rows cols).toNat
          ((entries.take nnz.toNat).foldl (countStep (max rows cols))
            (List.replicate (max rows cols).toNat 0))).getD (i + 1) 0 =
        (fillOffsets (max rows cols).toNat
          ((entries.take nnz.toNat).foldl (countStep (max rows cols))
            (List.replicate (max rows cols).toNat 0))).getD i 0 +
          degreeIn (max rows cols) (entries.take nnz.toNat) i := by
      intro i hi
      rw [o3 i hi, c3 i, getD_replicate_zero, Nat.zero_add]
    refine ⟨_, readMTX_some rows cols nnz entries junk h, hcast, o1, o2, hstep, ?_, rfl,
      ?_, ?_, rfl⟩
    · intro i hi
      have := hstep i hi
      show (fillOffsets _ _).getD i 0 ≤ (fillOffsets _ _).getD (i + 1) 0
      omega
    · show (fillOffsets _ _).getD (max rows cols).toNat 0 = _
      rw [fillOffsets_sum _ _ (by rw [c1]; simp) _ (Nat.le_refl _),
        List.take_of_length_le (by rw [c1]; simp), c2]
      simp
    · show (Prod.fst (List.foldl (fillStep _ _) _ _)).length
        = (fillOffsets _ _).getD (max rows cols).toNat 0
      rw [fillPass_length]
      simp

/-- Witness for C13: the file of the six-vertex scenario, size line `6 6 3` and
data lines `1 2`, `2 3`, `4 5`, gives the offsets `[0, 1, 3, 4, 5, 6, 6]`. -/
theorem readMTX_offsets_are_degree_sums_witness :
    (0 : Int) ≤ max 6 6 ∧
    (readMTX 6 6 3 [(1, 2), (2, 3), (4, 5)] (fun _ => 0)).map
      (fun g => (g.vertices, g.num_edges, g.offsets)) = some (6, 6, [0, 1, 3, 4, 5, 6, 6]) ∧
    ∃ g, readMTX 6 6 3 [(1, 2), (2, 3), (4, 5)] (fun _ => 0) = some g ∧
      (g.vertices : Int) = max 6 6 ∧
      g.offsets.length = g.vertices + 1 ∧
      g.offsets.getD 0 0 = 0 ∧
      (∀ i, i < g.vertices → g.offsets.getD (i + 1) 0 =
        g.offsets.getD i 0 + degreeIn (max 6 6) ([(1, 2), (2, 3), (4, 5)].take (3 : Int).toNat) i) ∧
      (∀ i, i < g.vertices → g.offsets.getD i 0 ≤ g.offsets.getD (i + 1) 0) ∧
      g.num_edges = g.offsets.getD g.vertices 0 ∧
      g.num_edges =
        2 * (([(1, 2), (2, 3), (4, 5)].take (3 : Int).toNat).filter (acceptedEntry (max 6 6))).length ∧
      g.edges.length = g.num_edges ∧
      g.labels = List.range g.vertices :=
  ⟨by decide, by decide,
    (readMTX_offsets_are_degree_sums 6 6 3 [(1, 2), (2, 3), (4, 5)] (fun _ => 0)).2 (by decide)⟩

/-- C14, behaviour of the code at the failing input: for the file with size line
`2 2 1` and the single data line `1 2`, the entry is accepted and counted, but the
second loop starts after the first data line and so never stores it: both edge
slots keep whatever the allocation held, so the slice of vertex 0 does not
receive vertex 1. On the file of the six-vertex scenario the slot of vertex 0
and the first slot of vertex 1 stay unfilled in the same way. -/
theorem readMTX_drops_first_entry (junk : Nat → Nat) :
    acceptedEntry 2 (1, 2) = true ∧
    readMTX 2 2 1 [(1, 2)] junk =
      some { vertices := 2, num_edges := 2, edges := [junk 0, junk 1], offsets := [0, 1, 2],
             labels := [0, 1] } ∧
    readMTX 6 6 3 [(1, 2), (2, 3), (4, 5)] junk =
      some { vertices := 6, num_edges := 6, edges := [junk 0, 2, junk 2, 1, 4, 3],
             offsets := [0, 1, 3, 4, 5, 6, 6], labels := [0, 1, 2, 3, 4, 5] } ∧
    ¬ adj { vertices := 2, num_edges := 2, edges := [7, 7], offsets := [0, 1, 2],
            labels := [0, 1] } 0 1 :=
  ⟨by decide, by rfl, by rfl, by decide⟩

/-- C15 (write set): on a well-formed graph, for every `size ≥ 1` and rank `p`,
the local relaxation of process `p` leaves `labels[i]` unchanged for every `i`
outside its range from `start_v` up to `end_v`, keeps the length of `labels`, and
leaves `vertices`, `num_edges`, `offsets` and `edges` unchanged. -/
theorem local_relax_write_set (g : Graph) (size p : Nat) (_hv : Valid g) (_hs : 1 ≤ size)
    (_hp : p < size) :
    (∀ i, ¬ (start_v g.vertices size p ≤ i ∧ i < end_v g.vertices size p) →
      (localRelax g p size).1.labels.getD i 0 = g.labels.getD i 0) ∧
    (localRelax g p size).1.labels.length = g.labels.length ∧
    (localRelax g p size).1.offsets = g.offsets ∧
    (localRelax g p size).1.edges = g.edges ∧
    (localRelax g p size).1.vertices = g.vertices ∧
    (localRelax g p size).1.num_edges = g.num_edges :=
  ⟨fun i hi => localRelax_outside g p size i hi, localRelax_labels_length g p size, rfl, rfl,
    rfl, rfl⟩

/-- Witness for C15: the six-vertex scenario graph, process 1 of 2 (range 3..5)
lowers only `labels[4]`. -/
theorem local_relax_write_set_witness :
    Valid sixGraph ∧ 1 ≤ 2 ∧ 1 < 2 ∧
    (localRelax sixGraph 1 2).1.labels = [0, 1, 2, 3, 3, 5] ∧
    ((∀ i, ¬ (start_v sixGraph.vertices 2 1 ≤ i ∧ i < end_v sixGraph.vertices 2 1) →
      (localRelax sixGraph 1 2).1.labels.getD i 0 = sixGraph.labels.getD i 0) ∧
    (localRelax sixGraph 1 2).1.labels.length = sixGraph.labels.length ∧
    (localRelax sixGraph 1 2).1.offsets = sixGraph.offsets ∧
    (localRelax sixGraph 1 2).1.edges = sixGraph.edges ∧
    (localRelax sixGraph 1 2).1.vertices = sixGraph.vertices ∧
    (localRelax sixGraph 1 2).1.num_edges = sixGraph.num_edges) :=
  ⟨by decide, by decide, by decide, by decide,
    local_relax_write_set sixGraph 2 1 (by decide) (by decide) (by decide)⟩

/-- C16 (termination): on a well-formed graph, for every `size ≥ 1` and every
common initial label array of length `n` with values below `n`, there is a pass
number `r ≥ 1`, at most the sum of the initial labels plus one, such that the loop
returns after exactly `r` passes whenever the fuel is at least `r` and has not
returned with less fuel; pass `r` is the first one in which `global_changed`
is 0, no process changes its graph in it, and the returned state is the state
after `r` passes. -/
theorem round_loop_terminates (g : Graph) (size : Nat) (_hv : Valid g) (hs : 1 ≤ size)
    (hl : g.labels.length = g.vertices)
    (_hrange : ∀ i, i < g.vertices → g.labels.getD i 0 < g.vertices) :
    ∃ r out, 1 ≤ r ∧ r ≤ g.labels.sum + 1 ∧
      (∀ fuel, r ≤ fuel →
        ColoringAlgorithmHybrid fuel (List.replicate size g) = some (out, r)) ∧
      (∀ fuel, fuel < r → ColoringAlgorithmHybrid fuel (List.replicate size g) = none) ∧
      out = rounds r (List.replicate size g) ∧
      (hybridRound (rounds (r - 1) (List.replicate size g))).2 = 0 ∧
      (∀ k, k + 1 < r → (hybridRound (rounds k (List.replicate size g))).2 ≠ 0) ∧
      (∀ p, p < size →
        localRelax (memOf (rounds (r - 1) (List.replicate size g)) p) p size
          = (memOf (rounds (r - 1) (List.replicate size g)) p, 0)) := by
  obtain ⟨⟨out, r⟩, hrun⟩ := loop_terminates size hs g.labels.sum g hl (Nat.le_refl _)
  obtain ⟨a, b, c, d, e⟩ := (loop_char _ _ out r).1 hrun
  refine ⟨r, out, a, b, ?_, ?_, c, d, e, ?_⟩
  · intro fuel hf
    exact (loop_char fuel _ out r).2 ⟨a, hf, c, d, e⟩
  · intro fuel hf
    rcases hrec : ColoringAlgorithmHybrid fuel (List.replicate size g) with _ | ⟨o, q⟩
    · rfl
    · obtain ⟨_, h2⟩ := loop_result_unique _ _ _ _ _ _ _ hrec hrun
      obtain ⟨_, b2, _⟩ := (loop_char fuel _ o q).1 hrec
      omega
  · intro p hp
    rw [memOf_rounds g size hs hl (r - 1) p hp]
    rw [roundFlag_replicate g size hs hl (r - 1)] at d
    exact (stepFlag_zero _ size hs (iterStep_length size (r - 1) g hl) d).2.2 p hp

/-- Witness for C16: the six-vertex scenario graph on two processes. -/
theorem round_loop_terminates_witness :
    Valid sixGraph ∧ 1 ≤ 2 ∧ sixGraph.labels.length = sixGraph.vertices ∧
    (∀ i, i < sixGraph.vertices → sixGraph.labels.getD i 0 < sixGraph.vertices) ∧
    ∃ r out, 1 ≤ r ∧ r ≤ sixGraph.labels.sum + 1 ∧
      (∀ fuel, r ≤ fuel →
        ColoringAlgorithmHybrid fuel (List.replicate 2 sixGraph) = some (out, r)) ∧
      (∀ fuel, fuel < r → ColoringAlgorithmHybrid fuel (List.replicate 2 sixGraph) = none) ∧
      out = rounds r (List.replicate 2 sixGraph) ∧
      (hybridRound (rounds (r - 1) (List.replicate 2 sixGraph))).2 = 0 ∧
      (∀ k, k + 1 < r → (hybridRound (rounds k (List.replicate 2 sixGraph))).2 ≠ 0) ∧
      (∀ p, p < 2 →
        localRelax (memOf (rounds (r - 1) (List.replicate 2 sixGraph)) p) p 2
          = (memOf (rounds (r - 1) (List.replicate 2 sixGraph)) p, 0)) :=
  ⟨by decide, by decide, by decide, by decide,
    round_loop_terminates sixGraph 2 (by decide) (by decide) (by decide) (by decide)⟩

/-- C17 (one hop per round): on a well-formed, symmetrically stored graph with
identity labels and `size ≥ 1` processes, let `m` be the smallest vertex of the
component of `v`. After `k` rounds every process holds `labels[v] = m` if `m` is
within `k` adjacencies of `v`, and no label is ever below `m`. Hence, if every
vertex is within `D` adjacencies of the minimum of its component, no round after
the first `D` changes anything and the loop makes at most `D + 1` passes, the
last of which changes nothing. -/
theorem one_hop_per_round (g : Graph) (size : Nat) (hv : Valid g) (_hsym : SymmetricStorage g)
    (hid : g.labels = List.range g.vertices) (hs : 1 ≤ size) :
    (∀ k p v m, p < size → v < g.vertices → IsLeast {j | Connected g v j} m →
      withinDist g k v m = true →
      (memOf (rounds k (List.replicate size g)) p).labels.getD v 0 = m) ∧
    (∀ k p v m, p < size → v < g.vertices → IsLeast {j | Connected g v j} m →
      m ≤ (memOf (rounds k (List.replicate size g)) p).labels.getD v 0) ∧
    (∀ D, (∀ v, v < g.vertices →
        ∃ m, IsLeast {j | Connected g v j} m ∧ withinDist g D v m = true) →
      (∀ k, D ≤ k → (hybridRound (rounds k (List.replicate size g))).2 = 0) ∧
      ∀ fuel out r, ColoringAlgorithmHybrid fuel (List.replicate size g) = some (out, r) →
        r ≤ D + 1) := by
  have hl : g.labels.length = g.vertices := by rw [hid]; simp
  refine ⟨?_, ?_, ?_⟩
  · intro k p v m hp hvn hm hd
    rw [memOf_rounds g size hs hl k p hp]
    exact hop_per_round g hv hid size hs k v m hvn (fun j hj => hm.2 hj) hd
  · intro k p v m hp hvn hm
    rw [memOf_rounds g size hs hl k p hp]
    obtain ⟨L, hL, _, hg⟩ := iterStep_RunInv g hv hid size hs k
    rw [hL]
    exact hm.2 (hg v hvn).2
  · intro D hD
    exact rounds_bounded_by_distance g hv hid size hs D hD

/-- Witness for C17: the six-vertex scenario graph on two processes; every
vertex is within two adjacencies of its component minimum, so the loop makes at
most three passes. -/
theorem one_hop_per_round_witness :
    Valid sixGraph ∧ SymmetricStorage sixGraph ∧
    sixGraph.labels = List.range sixGraph.vertices ∧ 1 ≤ 2 ∧
    (∀ v, v < sixGraph.vertices →
      ∃ m, IsLeast {j | Connected sixGraph v j} m ∧ withinDist sixGraph 2 v m = true) ∧
    (∀ fuel out r, ColoringAlgorithmHybrid fuel (List.replicate 2 sixGraph) = some (out, r) →
      r ≤ 2 + 1) :=
  ⟨by decide, by decide, by decide, by decide,
    isLeast_of_certificate sixGraph (by decide) sixMin 2 (by decide) (by decide) (by decide),
    ((one_hop_per_round sixGraph 2 (by decide) (by decide) (by decide) (by decide)).2.2 2
      (isLeast_of_certificate sixGraph (by decide) sixMin 2 (by decide) (by decide)
        (by decide))).2⟩

/-- C18 (round-boundary agreement): on a well-formed graph, for every
`size ≥ 1`, if all processes hold the same graph `g` with `n` labels at the start
of a round, then after the all-gather of that round all processes hold one and
the same label array of length `n`, and its entry `i` is the value computed for
`i` by the local relaxation of the process `p` that owns `i`. -/
theorem round_boundary_agreement (g : Graph) (size : Nat) (_hv : Valid g) (hs : 1 ≤ size)
    (hl : g.labels.length = g.vertices) :
    ∃ L, L.length = g.vertices ∧
      (hybridRound (List.replicate size g)).1 = List.replicate size { g with labels := L } ∧
      ∀ p, p < size → ∀ i, start_v g.vertices size p ≤ i → i < end_v g.vertices size p →
        L.getD i 0 = (localRelax g p size).1.labels.getD i 0 := by
  refine ⟨gathered g size, (gathered_spec g size hl).1, ?_, (gathered_spec g size hl).2⟩
  rw [hybridRound_replicate g size hs hl]
  rfl

/-- Witness for C18: the six-vertex scenario graph on three processes; after the
first round every process holds `[0, 0, 1, 3, 3, 5]`. -/
theorem round_boundary_agreement_witness :
    Valid sixGraph ∧ 1 ≤ 3 ∧ sixGraph.labels.length = sixGraph.vertices ∧
    (hybridRound (List.replicate 3 sixGraph)).1
      = List.replicate 3 { sixGraph with labels := [0, 0, 1, 3, 3, 5] } ∧
    ∃ L, L.length = sixGraph.vertices ∧
      (hybridRound (List.replicate 3 sixGraph)).1
        = List.replicate 3 { sixGraph with labels := L } ∧
      ∀ p, p < 3 → ∀ i, start_v sixGraph.vertices 3 p ≤ i → i < end_v sixGraph.vertices 3 p →
        L.getD i 0 = (localRelax sixGraph p 3).1.labels.getD i 0 :=
  ⟨by decide, by decide, by decide, by decide,
    round_boundary_agreement sixGraph 3 (by decide) (by decide) (by decide)⟩

/-- Counterexample to C19: on a single process the loop on the path graph makes
two passes, the first of which changes labels, and never returns after one pass. -/
theorem path_graph_not_single_round :
    ColoringAlgorithmHybrid 2 (List.replicate 1 pathGraph) =
      some (List.replicate 1 { pathGraph with labels := List.replicate 10 0 }, 2) ∧
    (hybridRound (List.replicate 1 pathGraph)).2 = 1 ∧
    ¬ ∃ fuel out, ColoringAlgorithmHybrid fuel (List.replicate 1 pathGraph) = some (out, 1) := by
  have h1 := pathGraph_single_run
  refine ⟨h1, by decide, ?_⟩
  rintro ⟨fuel, out, h⟩
  have := (loop_result_unique _ _ _ _ _ _ _ h h1).2
  omega

/-- C19 as amended: on the path graph 0 - 1 - ... - 9 with identity labels, for
every `size ≥ 1` the loop stops, every process then holds label 0 for every
vertex, and the loop body has been executed at least twice and at most ten
times (exactly twice on a single process): the first pass always changes a
label, and the last pass is the one that finds no change. -/
theorem path_graph_rounds (size : Nat) (hs : 1 ≤ size) :
    (∃ fuel out, ColoringAlgorithmHybrid fuel (List.replicate size pathGraph) = some out) ∧
    ∀ fuel out r, ColoringAlgorithmHybrid fuel (List.replicate size pathGraph) = some (out, r) →
      2 ≤ r ∧ r ≤ 10 ∧ (size = 1 → r = 2) ∧
      ∀ p, p < size → (memOf out p).labels = List.replicate 10 0 := by
  have hv : Valid pathGraph := by decide
  have hsym : SymmetricStorage pathGraph := by decide
  have hid : pathGraph.labels = List.range pathGraph.vertices := rfl
  have hl : pathGraph.labels.length = pathGraph.vertices := rfl
  obtain ⟨hterm, hres⟩ := run_from_identity pathGraph size hv hid hs
  refine ⟨hterm, ?_⟩
  intro fuel out r hrun
  obtain ⟨a, _, _, d, _⟩ := (loop_char fuel _ out r).1 hrun
  have hfirst : stepFlag pathGraph size ≠ 0 := by
    intro h0
    have hc := (stepFlag_zero pathGraph size hs hl h0).2.1
    have hnc : ¬ Converged pathGraph := by decide
    exact hnc hc
  refine ⟨?_, ?_, ?_, ?_⟩
  · by_contra hlt
    have e : r = 1 := by omega
    subst e
    have := roundFlag_replicate pathGraph size hs hl 0
    exact hfirst (this.symm.trans d)
  · exact (rounds_bounded_by_distance pathGraph hv hid size hs 9 pathGraph_least).2
      fuel out r hrun
  · intro h1
    subst h1
    exact (loop_result_unique _ _ _ _ _ _ _ hrun pathGraph_single_run).2
  · intro p hp
    obtain ⟨L, rfl, hlen, hg, hc⟩ := hres fuel out r hrun
    unfold memOf
    rw [getD_replicate_graph size p _ _ hp]
    show L = List.replicate 10 0
    apply ext_getD _ _ (by rw [hlen]; rfl)
    intro i hi
    have hi2 : i < pathGraph.vertices := by rw [← hlen]; exact hi
    obtain ⟨m, hm, hd⟩ := pathGraph_least i hi2
    have h1 := fixpoint_isLeast { pathGraph with labels := L } hv hsym hc hg i hi2
    have h2 : L.getD i 0 = m := h1.unique hm
    have h3 : m = 0 := by
      have := hm.2 (withinDist_connected pathGraph 9 i 0 (pathGraph_dist i hi2))
      omega
    rw [h2, h3, getD_replicate_zero]

/-- Witness for the amended C19: two processes need three passes. -/
theorem path_graph_rounds_witness :
    1 ≤ 2 ∧
    (ColoringAlgorithmHybrid 3 (List.replicate 2 pathGraph)).map (fun out => out.2) = some 3 ∧
    ((∃ fuel out, ColoringAlgorithmHybrid fuel (List.replicate 2 pathGraph) = some out) ∧
    ∀ fuel out r, ColoringAlgorithmHybrid fuel (List.replicate 2 pathGraph) = some (out, r) →
      2 ≤ r ∧ r ≤ 10 ∧ (2 = 1 → r = 2) ∧
      ∀ p, p < 2 → (memOf out p).labels = List.replicate 10 0) :=
  ⟨by decide, by decide, path_graph_rounds 2 (by decide)⟩

/-- C20 (independence of the process count): on a well-formed, symmetrically
stored graph with identity labels, for every `size ≥ 1` both the single-process
`ColoringAlgorithm` of `ccomponents.c` and `ColoringAlgorithmHybrid` stop, and
the graph every process of the hybrid run ends with, labels included, is the
graph the single-process run ends with. -/
theorem hybrid_equals_sequential (g : Graph) (size : Nat) (hv : Valid g)
    (hsym : SymmetricStorage g) (hid : g.labels = List.range g.vertices) (hs : 1 ≤ size) :
    (∃ fuel out, ColoringAlgorithm fuel g = some out) ∧
    (∃ fuel out, ColoringAlgorithmHybrid fuel (List.replicate size g) = some out) ∧
    ∀ f1 out r1 f2 gseq r2,
      ColoringAlgorithmHybrid f1 (List.replicate size g) = some (out, r1) →
      ColoringAlgorithm f2 g = some (gseq, r2) →
      ∀ p, p < size → memOf out p = gseq ∧ (memOf out p).labels = gseq.labels := by
  have hlen : (List.range g.vertices).length = g.vertices := List.length_range _
  have hg1 : ({ g with labels := List.range g.vertices } : Graph) = g := by rw [← hid]
  have hseq : ∀ fuel, ColoringAlgorithm fuel g =
      (ColoringAlgorithmHybrid fuel (List.replicate 1 g)).map
        (fun out => ({ g with labels := (memOf out.1 0).labels }, out.2)) := by
    intro fuel
    unfold ColoringAlgorithm
    rw [seqLoop_eq_hybrid g fuel _ hlen, hg1]
    simp only [Option.map_map]
    rfl
  obtain ⟨⟨fa, oa, ha⟩, hresa⟩ := run_from_identity g 1 hv hid (Nat.le_refl _)
  obtain ⟨hterm, hres⟩ := run_from_identity g size hv hid hs
  refine ⟨⟨fa, _, by rw [hseq fa, ha]; rfl⟩, hterm, ?_⟩
  intro f1 out r1 f2 gseq r2 h1 h2 p hp
  obtain ⟨L1, rfl, hl1, hg1', hc1⟩ := hres f1 out r1 h1
  rw [hseq f2] at h2
  rcases hrec : ColoringAlgorithmHybrid f2 (List.replicate 1 g) with _ | ⟨o, q⟩
  · rw [hrec] at h2
    exact absurd h2 (by simp)
  · rw [hrec] at h2
    obtain ⟨L2, rfl, hl2, hg2, hc2⟩ := hresa f2 o q hrec
    have e : gseq = { g with labels := L2 } := by
      have e0 : ({ g with labels :=
          (memOf (List.replicate 1 { g with labels := L2 }) 0).labels } : Graph) = gseq :=
        congrArg Prod.fst (Option.some.inj h2)
      rw [← e0]
      unfold memOf
      rw [getD_replicate_graph 1 0 _ _ (by omega)]
    have hL : L1 = L2 := by
      apply ext_getD _ _ (by omega)
      intro i hi
      have hi2 : i < g.vertices := by omega
      exact (fixpoint_isLeast { g with labels := L1 } hv hsym hc1 hg1' i hi2).unique
        (fixpoint_isLeast { g with labels := L2 } hv hsym hc2 hg2 i hi2)
    unfold memOf
    rw [getD_replicate_graph size p _ _ hp, e, hL]
    exact ⟨rfl, rfl⟩

/-- Witness for C20: the six-vertex scenario graph, four processes against the
single-process run; both end with `[0, 0, 0, 3, 3, 5]`. -/
theorem hybrid_equals_sequential_witness :
    Valid sixGraph ∧ SymmetricStorage sixGraph ∧
    sixGraph.labels = List.range sixGraph.vertices ∧ 1 ≤ 4 ∧
    (ColoringAlgorithm 2 sixGraph).map (fun out => out.1.labels) = some [0, 0, 0, 3, 3, 5] ∧
    ((∃ fuel out, ColoringAlgorithm fuel sixGraph = some out) ∧
    (∃ fuel out, ColoringAlgorithmHybrid fuel (List.replicate 4 sixGraph) = some out) ∧
    ∀ f1 out r1 f2 gseq r2,
      ColoringAlgorithmHybrid f1 (List.replicate 4 sixGraph) = some (out, r1) →
      ColoringAlgorithm f2 sixGraph = some (gseq, r2) →
      ∀ p, p < 4 → memOf out p = gseq ∧ (memOf out p).labels = gseq.labels) :=
  ⟨by decide, by decide, by decide, by decide, by decide,
    hybrid_equals_sequential sixGraph 4 (by decide) (by decide) (by decide) (by decide)⟩

/-- C21 (zero vertices): for every group size `size ≥ 1` and every rank below
`size`, when rank 0 holds a graph with `vertices = 0` the broadcast count is 0, the
test `n <= 0` holds and the rank leaves `BroadcastGraph` by `exit(1)` right after
the first broadcast; and on every rank `BroadcastGraph` returns normally if and
only if rank 0 holds a graph with at least one vertex. -/
theorem zero_vertices_exit_group (size : Nat) (junk : Nat → Nat → Nat) (_hs : 1 ≤ size)
    (rank : Nat) (hr : rank < size) :
    (∀ g : Graph, g.vertices = 0 →
      sentVertexCount (some g) = 0 ∧
      (BroadcastGroup (some g) size junk).getD rank (Except.error 0) = Except.error 1 ∧
      BroadcastTrace (some g) rank = [BcastEvent.bcastVertices 0, BcastEvent.exitWith 1]) ∧
    (∀ g0 : Option Graph,
      (∃ out, (BroadcastGroup g0 size junk).getD rank (Except.error 0) = Except.ok out) ↔
        ∃ g, g0 = some g ∧ 1 ≤ g.vertices) := by
  constructor
  · intro g hg
    have h0 : sentVertexCount (some g) = 0 := by
      show (g.vertices : Int) = 0
      omega
    refine ⟨h0, ?_, ?_⟩
    · rw [BroadcastGroup_getD (some g) size junk rank hr]
      exact (BroadcastGraph_error_iff (some g) rank (junk rank)).1 (by omega)
    · unfold BroadcastTrace
      rw [h0]
      rfl
  · intro g0
    rw [BroadcastGroup_getD g0 size junk rank hr]
    exact BroadcastGraph_ok_iff g0 rank (junk rank)

/-- Witness for C21: rank 1 of a group of two, rank 0 holding the graph made
by `createGraph 0`. -/
theorem zero_vertices_exit_group_witness :
    1 ≤ 2 ∧ 1 < 2 ∧ (createGraph 0).vertices = 0 ∧
    (sentVertexCount (some (createGraph 0)) = 0 ∧
      (BroadcastGroup (some (createGraph 0)) 2 (fun _ _ => 0)).getD 1 (Except.error 0)
        = Except.error 1 ∧
      BroadcastTrace (some (createGraph 0)) 1
        = [BcastEvent.bcastVertices 0, BcastEvent.exitWith 1]) :=
  ⟨by decide, by decide, rfl,
    (zero_vertices_exit_group 2 (fun _ _ => 0) (by decide) 1 (by decide)).1 (createGraph 0) rfl⟩

/-- C22, behaviour of the code at the failing input: with `n = 2` and the data
line `0 2`, whose first endpoint is outside `1..n`, the tests of `readMTX` in
`ccomponents.c` do not skip the entry, so the body uses the index `-1` on `temp`
and `offsets` and would store `-1` in `edges`; the reader of `cc_cilk_mpi.c`
rejects the same entry. What the two tests do guarantee for every kept entry is
only `u < n`, `v < n` and `u ≠ v`. -/
theorem seq_readMTX_keeps_endpoint_zero :
    Seq.keepsEntry 2 (0, 2) = true ∧
    Seq.scanEntries 2 1 [(0, 2)] 0 = [(-1, 1)] ∧
    acceptedEntry 2 (0, 2) = false ∧
    ∀ (n nnz : Int) (entries : List (Int × Int)) (p : Int × Int),
      p ∈ Seq.scanEntries n nnz entries 0 → p.1 < n ∧ p.2 < n ∧ p.1 ≠ p.2 :=
  ⟨by decide, by decide, by decide,
    fun n nnz entries p hp => Seq.scanEntries_upper n nnz entries 0 p hp⟩

/-- C23 (range sizes): for every `n` and `size ≥ 1`, every process `p` but the
last owns exactly `n / size` vertices and the last owns `n / size + n % size`;
the `recvcounts` table holds these sizes; and when `n < size` every process but
the last owns the empty range and the last owns the whole range `0 .. n - 1`. -/
theorem range_sizes (n size : Nat) (hs : 1 ≤ size) :
    (∀ p, p + 1 < size → end_v n size p - start_v n size p = n / size ∧
      (recvcounts n size).getD p 0 = n / size) ∧
    end_v n size (size - 1) - start_v n size (size - 1) = n / size + n % size ∧
    (recvcounts n size).getD (size - 1) 0 = n / size + n % size ∧
    (n < size →
      (∀ p, p + 1 < size → start_v n size p = end_v n size p) ∧
      start_v n size (size - 1) = 0 ∧ end_v n size (size - 1) = n) := by
  refine ⟨?_, range_size_last n size hs, ?_, ?_⟩
  · intro p hp
    refine ⟨range_size_inner n size p hp, ?_⟩
    rw [recvcounts_getD n size p (by omega)]
    exact range_size_inner n size p hp
  · rw [recvcounts_getD n size (size - 1) (by omega)]
    exact range_size_last n size hs
  · intro hlt
    have hc : n / size = 0 := Nat.div_eq_of_lt hlt
    refine ⟨?_, ?_, end_v_last n size⟩
    · intro p hp
      have hne : p ≠ size - 1 := by omega
      simp only [start_v, end_v, hne, if_false, hc, Nat.mul_zero]
    · simp only [start_v, hc, Nat.mul_zero]

/-- Witness for C23: ten vertices on four processes give sizes 2, 2, 2, 4, and
three vertices on five processes give sizes 0, 0, 0, 0, 3. -/
theorem range_sizes_witness :
    1 ≤ 4 ∧ recvcounts 10 4 = [2, 2, 2, 4] ∧ recvcounts 3 5 = [0, 0, 0, 0, 3] ∧
    ((∀ p, p + 1 < 4 → end_v 10 4 p - start_v 10 4 p = 10 / 4 ∧
      (recvcounts 10 4).getD p 0 = 10 / 4) ∧
    end_v 10 4 (4 - 1) - start_v 10 4 (4 - 1) = 10 / 4 + 10 % 4 ∧
    (recvcounts 10 4).getD (4 - 1) 0 = 10 / 4 + 10 % 4 ∧
    (10 < 4 →
      (∀ p, p + 1 < 4 → start_v 10 4 p = end_v 10 4 p) ∧
      start_v 10 4 (4 - 1) = 0 ∧ end_v 10 4 (4 - 1) = 10)) :=
  ⟨by decide, by decide, by decide, range_sizes 10 4 (by decide)⟩

end CC
